import Mathlib

/-!
# Verification of `.github/scripts/translate_qmd.py` (Bizard)

A shallow embedding of the pure, text-level parts of the QMD translation
script, over `List Char` (Python `str`), together with proofs and refutations
of the specification's claims about them.

Remote API calls (`translate_text`, the chat-completion requests) are modelled
as oracle function arguments; file I/O and process exit are modelled as pure
functions of the data they inspect.  Python regular-expression semantics
(leftmost match, greedy/non-greedy with backtracking) are implemented
deterministically for the concrete patterns the script uses.
-/

/-! ## Basic character classes and string utilities -/

/-- Python `\s` (`str` whitespace relevant to `re`): space, tab, newline,
carriage return, form feed, vertical tab. -/
def isPySpace (c : Char) : Bool :=
  c = ' ' || c = '\t' || c = '\n' || c = '\r' || c = Char.ofNat 12 || c = Char.ofNat 11

/-- The character class `[一-鿿]` of `detect_language`. -/
def isChineseChar (c : Char) : Bool :=
  0x4e00 ≤ c.toNat && c.toNat ≤ 0x9fff

/-- The character class `[a-zA-Z]` of `detect_language`. -/
def isLatinLetter (c : Char) : Bool :=
  ('a' ≤ c && c ≤ 'z') || ('A' ≤ c && c ≤ 'Z')

/-- ASCII letter test, modelling Python `str.isalpha` for the ASCII-name
filenames the script's language-suffix check is concerned with. -/
def isAsciiAlpha (c : Char) : Bool :=
  ('a' ≤ c && c ≤ 'z') || ('A' ≤ c && c ≤ 'Z')

/-- Python `str.strip()`: drop whitespace from both ends. -/
def pyStrip (s : List Char) : List Char :=
  ((s.dropWhile isPySpace).reverse.dropWhile isPySpace).reverse

/-- The apostrophe character `'`. -/
def aposChar : Char := Char.ofNat 39

/-- Membership test for Python `str.strip('"\'')`. -/
def isQuoteChar (c : Char) : Bool := c = '"' || c = aposChar

/-- Python `str.strip('"\'')`: drop `"` and `'` from both ends. -/
def pyStripQuotes (s : List Char) : List Char :=
  ((s.dropWhile isQuoteChar).reverse.dropWhile isQuoteChar).reverse

/-- `p` occurs as a contiguous substring of `s`. -/
def Occurs (p s : List Char) : Prop := ∃ a b, s = a ++ p ++ b

/-- Boolean substring test (used to decide `Occurs` on concrete inputs). -/
def occursB (p : List Char) : List Char → Bool
  | [] => p.isEmpty
  | c :: t => p.isPrefixOf (c :: t) || occursB p t

/-! ## Language detection and resolution (`detect_language`, `translate_qmd_file`) -/

/-- The two supported language tags; `detect_language` returns `'en'` or `'zh'`. -/
inductive Lang where
  | en : Lang
  | zh : Lang
deriving DecidableEq, Repr

/-- `LANGUAGE_DETECTION_THRESHOLD = 0.3`, and the comparison
`chinese_chars > english_chars * 0.3` of `detect_language`, modelled exactly
over the rationals as `10 * chinese > 3 * english`. -/
def thresholdExceeded (chinese english : Nat) : Bool :=
  3 * english < 10 * chinese

/-- `QMDTranslator.detect_language`: count Chinese characters and English
letters; classify as `zh` iff the Chinese count exceeds the English count
times the threshold `0.3`. -/
def detect_language (content : List Char) : Lang :=
  let chinese_chars := (content.filter isChineseChar).length
  let english_chars := (content.filter isLatinLetter).length
  if thresholdExceeded chinese_chars english_chars then .zh else .en

/-- The suffix `".zh.qmd"`. -/
def zhQmdSuf : List Char := ['.', 'z', 'h', '.', 'q', 'm', 'd']

/-- The suffix `".qmd"`. -/
def qmdSuf : List Char := ['.', 'q', 'm', 'd']

/-- The string `"zh"`. -/
def zhChars : List Char := ['z', 'h']

/-- Python `name_without_qmd.split('.')[-1]` when `'.' in name_without_qmd`:
the segment after the last dot. -/
def afterLastDot (s : List Char) : List Char :=
  (s.reverse.takeWhile (fun c => c ≠ '.')).reverse

/-- The filename-suffix language inference of `translate_qmd_file`, applied
identically to the input filename (source) and the output filename (target):
`.zh.qmd` means Chinese; a plain `.qmd` with no other two-or-three-letter
alphabetic extension means English; any other such extension yields no
verdict (`None`). -/
def filenameLang (fname : List Char) : Option Lang :=
  if zhQmdSuf.isSuffixOf fname then some .zh
  else if qmdSuf.isSuffixOf fname && !(zhQmdSuf.isSuffixOf fname) then
    -- name_without_qmd = filename[:-4]
    let nameWithoutQmd := fname.take (fname.length - 4)
    if '.' ∈ nameWithoutQmd then
      let possibleLang := afterLastDot nameWithoutQmd
      if (possibleLang.length = 2 || possibleLang.length = 3)
          && possibleLang.all isAsciiAlpha && possibleLang ≠ zhChars then
        none
      else some .en
    else some .en
  else none

/-- Source-language resolution of `translate_qmd_file`: filename-based
detection wins; otherwise fall back to content-based detection on the body. -/
def resolveSourceLang (inputFilename body : List Char) : Lang :=
  match filenameLang inputFilename with
  | some l => l
  | none => detect_language body

/-- The opposite language (`'zh' if source_lang == 'en' else 'en'`). -/
def oppositeLang : Lang → Lang
  | .en => .zh
  | .zh => .en

/-- Target-language resolution of `translate_qmd_file`: an explicit
`target_lang` parameter wins; else the output filename's implied language;
else the opposite of the resolved source language. -/
def resolveTargetLang (explicitTarget : Option Lang) (outputFilename : List Char)
    (sourceLang : Lang) : Lang :=
  match explicitTarget with
  | some l => l
  | none =>
    match filenameLang outputFilename with
    | some l => l
    | none => oppositeLang sourceLang

/-! Specification-side predicates for the suffix rule, written from the
spec's words ("a two-or-three-letter alphabetic language suffix before the
extension") and used to state the claims about language resolution. -/

/-- From the spec's words: the two-or-three-letter alphabetic suffix that a
filename carries before its `.qmd` extension, when there is one. -/
def specLangSuffix (fname : List Char) : Option (List Char) :=
  let stem := fname.take (fname.length - 4)
  if '.' ∈ stem then
    let p := afterLastDot stem
    if (p.length = 2 || p.length = 3) && p.all isAsciiAlpha then some p else none
  else none

/-! ## YAML frontmatter splitting (`extract_yaml_frontmatter`)

The script matches `r'^---\s*\n(.*?)\n---\s*\n'` with `re.DOTALL` against the
start of the file.  The matcher below implements exactly that pattern's
backtracking semantics: the opening `\s*\n` greedily consumes whitespace and
backtracks over the newlines it contains, the non-greedy group stops at the
earliest closing `\n---\s*\n`, and the closing `\s*\n` greedily consumes
whitespace up to (and including) its last contained newline. -/

/-- Positions of `'\n'` inside the maximal whitespace prefix of `s`, offset by
`i`, in decreasing order: the order in which a greedy `\s*` followed by a
literal `\n` tries to end, from longest match to shortest. -/
def wsNlCandAux : List Char → Nat → List Nat
  | [], _ => []
  | c :: t, i =>
    if isPySpace c then
      (if c = '\n' then wsNlCandAux t (i + 1) ++ [i] else wsNlCandAux t (i + 1))
    else []

/-- Match `\s*\n` at the start of `s`, greedily (no further pattern follows):
returns the characters matched by `\s*` and the remainder after the `\n`. -/
def closeTailFM (s : List Char) : Option (List Char × List Char) :=
  match wsNlCandAux s 0 with
  | [] => none
  | k :: _ => some (s.take k, s.drop (k + 1))

/-- Scan for the earliest position where `\n---\s*\n` matches (the non-greedy
group `(.*?)` grows one character at a time): returns the group's characters,
the characters matched by the closing `\s*`, and the remainder. -/
def findCloseFM : List Char → Option (List Char × List Char × List Char)
  | [] => none
  | c :: t =>
    if c = '\n' ∧ ['-', '-', '-'].isPrefixOf t then
      match closeTailFM (t.drop 3) with
      | some (w2, rest) => some ([], w2, rest)
      | none =>
        match findCloseFM t with
        | none => none
        | some (inner, w2, rest) => some (c :: inner, w2, rest)
    else
      match findCloseFM t with
      | none => none
      | some (inner, w2, rest) => some (c :: inner, w2, rest)

/-- Try the opening `\s*\n` end positions in backtracking order; for each,
look for the earliest close.  Returns `(W1, inner, W2, rest)` where `W1`/`W2`
are the characters matched by the opening/closing `\s*`. -/
def tryOpensFM (s3 : List Char) : List Nat → Option (List Char × List Char × List Char × List Char)
  | [] => none
  | k :: ks =>
    match findCloseFM (s3.drop (k + 1)) with
    | some (inner, w2, rest) => some (s3.take k, inner, w2, rest)
    | none => tryOpensFM s3 ks

/-- The full match of `re.match(r'^---\s*\n(.*?)\n---\s*\n', content, re.DOTALL)`:
`some (W1, group1, W2, rest)` on success, where the consumed prefix is
`--- ++ W1 ++ '\n' ++ group1 ++ '\n---' ++ W2 ++ '\n'` and `rest` is
`content[match.end():]`. -/
def matchFM (content : List Char) : Option (List Char × List Char × List Char × List Char) :=
  match content with
  | '-' :: '-' :: '-' :: t => tryOpensFM t (wsNlCandAux t 0)
  | _ => none

/-- The string `"---"`. -/
def dashes3 : List Char := ['-', '-', '-']

/-- `QMDTranslator.extract_yaml_frontmatter`: on a match, return the
normalized frontmatter `f"---\n{match.group(1)}\n---\n"` and the body
`content[match.end():]`; otherwise `("", content)`. -/
def extract_yaml_frontmatter (content : List Char) : List Char × List Char :=
  match matchFM content with
  | some (_, inner, _, rest) =>
    (dashes3 ++ '\n' :: inner ++ '\n' :: dashes3 ++ ['\n'], rest)
  | none => ([], content)

/-! ## Code block extraction and restoration
(`extract_code_blocks`, `restore_code_blocks`)

The pattern is `r'```+[^\n]*\n.*?\n```+'` with `re.DOTALL`, substituted by
`re.sub` left to right: at a match position, the opening backtick run is
greedy, `[^\n]*\n` runs to the first newline, the non-greedy `.*?` stops at
the earliest `\n` followed by three or more backticks, and the closing
backtick run is greedy. -/

/-- Split at the first newline: `some (line, rest)` with
`s = line ++ '\n' :: rest`, the `line` newline-free (the `[^\n]*\n` part). -/
def splitLine : (s : List Char) →
    Option {p : List Char × List Char // s = p.1 ++ '\n' :: p.2}
  | [] => none
  | c :: t =>
    if h : c = '\n' then some ⟨([], t), by simp [h]⟩
    else
      match splitLine t with
      | none => none
      | some ⟨(l, r), hp⟩ => some ⟨(c :: l, r), by simp [hp]⟩

/-- Scan for the earliest `\n` followed by three or more backticks (the
`.*?\n```+` part, with the final backtick run greedy): returns the
characters matched by `.*?`, the closing backtick run, and the remainder. -/
def findCloseCB : (s : List Char) →
    Option {q : List Char × List Char × List Char //
      s = q.1 ++ '\n' :: q.2.1 ++ q.2.2 ∧ 3 ≤ q.2.1.length ∧ ∀ c ∈ q.2.1, c = '`'}
  | [] => none
  | c :: t =>
    if h : c = '\n' ∧ 3 ≤ (t.takeWhile (fun x => x = '`')).length then
      some ⟨([], t.takeWhile (fun x => x = '`'), t.dropWhile (fun x => x = '`')),
        by
          refine ⟨by simp [h.1, List.takeWhile_append_dropWhile], h.2, ?_⟩
          intro c hc
          simpa using (List.mem_takeWhile_imp hc)⟩
    else
      match findCloseCB t with
      | none => none
      | some ⟨(inner, tk, rest), hp⟩ =>
        some ⟨(c :: inner, tk, rest), by
          exact ⟨by simp [hp.1], hp.2.1, hp.2.2⟩⟩

/-- Try to match `` ```+[^\n]*\n.*?\n```+ `` at the start of `s`.  On success,
returns the matched text `m` and the remainder, with the decomposition facts
needed later: `s = m ++ rest` and `m` ends in a closing fence
`'\n' :: tk` of three or more backticks. -/
def tryMatchCB (s : List Char) :
    Option {p : List Char × List Char //
      s = p.1 ++ p.2 ∧
      (∃ a c tk, p.1 = a ++ '\n' :: c ++ '\n' :: tk ∧ 3 ≤ tk.length ∧ ∀ x ∈ tk, x = '`') ∧
      ∃ d, p.1 = '`' :: d} :=
  let ticks := s.takeWhile (fun x => x = '`')
  if h3 : ticks.length < 3 then none
  else
    match splitLine (s.dropWhile (fun x => x = '`')) with
    | none => none
    | some ⟨(line, r1), hline⟩ =>
      match findCloseCB r1 with
      | none => none
      | some ⟨(body, tk, rest), hclose⟩ =>
        some ⟨(ticks ++ line ++ '\n' :: body ++ '\n' :: tk, rest), by
          refine ⟨?_, ⟨ticks ++ line, body, tk, by simp, hclose.2.1, hclose.2.2⟩, ?_⟩
          · have hs : s = ticks ++ (s.dropWhile (fun x => x = '`')) := by
              simp [ticks, List.takeWhile_append_dropWhile]
            rw [hs, hline, hclose.1]
            simp
          · rcases hE : s.takeWhile (fun x => x = '`') with _ | ⟨c₀, ts⟩
            · exfalso
              apply h3
              show (s.takeWhile (fun x => x = '`')).length < 3
              rw [hE]
              simp
            · have hc₀ : c₀ = '`' := by
                have hmem : c₀ ∈ s.takeWhile (fun x => x = '`') := by
                  rw [hE]; simp
                have := List.mem_takeWhile_imp hmem
                simpa using this
              refine ⟨ts ++ line ++ '\n' :: body ++ '\n' :: tk, ?_⟩
              show ticks ++ line ++ '\n' :: body ++ '\n' :: tk = _
              rw [show ticks = s.takeWhile (fun x => x = '`') from rfl, hE, hc₀]
              simp⟩

/-- The decimal digit character of `d < 10`. -/
def digitChar (d : Nat) : Char := Char.ofNat (48 + d)

/-- Structural worker for `natDigits`; the fuel argument only bounds the
recursion depth (any fuel above the digit count gives the same result). -/
def natDigitsAux : Nat → Nat → List Char
  | 0, _ => []
  | fuel + 1, n =>
    if n < 10 then [digitChar n]
    else natDigitsAux fuel (n / 10) ++ [digitChar (n % 10)]

/-- The decimal digit string of a natural number (Python `"{}".format(i)`). -/
def natDigits (n : Nat) : List Char := natDigitsAux (n + 1) n

/-- The fixed fourteen characters `"<<<CODE_BLOCK_"` of the placeholder
template. -/
def phHead : List Char :=
  ['<', '<', '<', 'C', 'O', 'D', 'E', '_', 'B', 'L', 'O', 'C', 'K', '_']

/-- The closing `">>>"` of the placeholder template. -/
def phTail : List Char := ['>', '>', '>']

/-- `placeholder_template.format(i)`, i.e. `"<<<CODE_BLOCK_{i}>>>"`. -/
def placeholder (i : Nat) : List Char := phHead ++ natDigits i ++ phTail

/-- Structural worker for the `re.sub` scan of `extract_code_blocks`: walk
the content left to right; at a match, emit the next placeholder and append
the matched text to the block list; otherwise keep one character and
continue.  `n` is the index the next extracted block will get
(`len(code_blocks)` at that point); the fuel argument only bounds the
recursion depth (any fuel at or above the content length gives the same
result, since every step strictly shrinks the content). -/
def extractAuxF : Nat → Nat → List Char → List Char × List (List Char)
  | 0, _, s => (s, [])
  | fuel + 1, n, s =>
    match tryMatchCB s with
    | some x =>
      (placeholder n ++ (extractAuxF fuel (n + 1) x.val.2).1,
       x.val.1 :: (extractAuxF fuel (n + 1) x.val.2).2)
    | none =>
      match s with
      | [] => ([], [])
      | c :: t =>
        (c :: (extractAuxF fuel n t).1, (extractAuxF fuel n t).2)

/-- The `re.sub` scan of `extract_code_blocks` starting at block index `n`. -/
def extractAux (n : Nat) (s : List Char) : List Char × List (List Char) :=
  extractAuxF s.length n s

/-- `QMDTranslator.extract_code_blocks`. -/
def extract_code_blocks (content : List Char) : List Char × List (List Char) :=
  extractAux 0 content

/-- Structural worker for Python `str.replace`; the fuel argument only
bounds the recursion depth (any fuel at or above the string length gives
the same result). -/
def replaceAllF : Nat → List Char → List Char → List Char → List Char
  | 0, s, _, _ => s
  | fuel + 1, s, pat, rep =>
    match s with
    | [] => []
    | c :: t =>
      if pat ≠ [] ∧ pat.isPrefixOf (c :: t) then
        rep ++ replaceAllF fuel ((c :: t).drop pat.length) pat rep
      else
        c :: replaceAllF fuel t pat rep

/-- Python `str.replace(pat, rep)` for a nonempty `pat`: replace every
non-overlapping occurrence, scanning left to right. -/
def replaceAll (s pat rep : List Char) : List Char :=
  replaceAllF s.length s pat rep

/-- The loop of `restore_code_blocks`, starting at placeholder index `i`:
`content = content.replace(f"<<<CODE_BLOCK_{i}>>>", block)` for each block. -/
def restoreAux (i : Nat) (content : List Char) : List (List Char) → List Char
  | [] => content
  | b :: bs => restoreAux (i + 1) (replaceAll content (placeholder i) b) bs

/-- `QMDTranslator.restore_code_blocks`. -/
def restore_code_blocks (content : List Char) (code_blocks : List (List Char)) : List Char :=
  restoreAux 0 content code_blocks

/-! ## YAML title translation (`translate_yaml_fields`)

The script searches `r'^title:\s*(.+)$'` with `re.MULTILINE` for the first
title match, transforms the captured value, and substitutes the first match
of `r'^title:\s*.+$'` (the same pattern without the group) by
`f'title: {translated_title}'`.  With `re.MULTILINE`, `\s*` may cross line
breaks while `.` may not, so the matched region starts at a line beginning
`title:` and its value is the first newline-free chunk reachable across
whitespace. -/

/-- The string `"title:"`. -/
def titleKey : List Char := ['t', 'i', 't', 'l', 'e', ':']

/-- The end position of `\s*` in `\s*(.+)$` at `r`, chosen greedily with
backtracking: the largest `k` not exceeding the maximal whitespace prefix of
`r` such that the character at `k` exists and is not a newline (so that `.+`
can match at least one character, with `$` then holding at its line's end). -/
def bestWsSplit (r : List Char) : Nat → Option Nat
  | 0 => if r.drop 0 ≠ [] ∧ r.get? 0 ≠ some '\n' then some 0 else none
  | k + 1 =>
    if r.drop (k + 1) ≠ [] ∧ r.get? (k + 1) ≠ some '\n' then some (k + 1)
    else bestWsSplit r k

/-- Match `\s*(.+)$` at `r`: `some (ws, group)` where `ws` is what `\s*`
consumed and `group` what `(.+)` captured (greedy, to its line's end). -/
def titleValMatch (r : List Char) : Option (List Char × List Char) :=
  match bestWsSplit r ((r.takeWhile isPySpace).length) with
  | none => none
  | some k => some (r.take k, (r.drop k).takeWhile (fun c => c ≠ '\n'))

/-- Structural worker for the title-line scan; the fuel argument only
bounds the recursion depth (any fuel above the text length gives the same
result, since each step drops at least one whole line). -/
def findTitleF : Nat → List Char → Option (List Char × List Char × List Char × List Char)
  | 0, _ => none
  | fuel + 1, s =>
    match (if titleKey.isPrefixOf s then titleValMatch (s.drop 6) else none) with
    | some (ws, grp) =>
      some ([], ws, grp, (s.drop 6).drop (ws.length + grp.length))
    | none =>
      match splitLine s with
      | none => none
      | some ⟨(l, r), _⟩ =>
        match findTitleF fuel r with
        | none => none
        | some (pre, ws, grp, post) => some (l ++ '\n' :: pre, ws, grp, post)

/-- Scan the frontmatter line by line (the `^` anchor of `re.MULTILINE`) for
the first line starting with `title:` whose remainder matches `\s*(.+)$`:
returns `(pre, ws, group, post)` with the text split around the match —
`pre` is everything before the matched line; on failure at a line start the
scan resumes after that line's newline. -/
def findTitle (s : List Char) : Option (List Char × List Char × List Char × List Char) :=
  findTitleF (s.length + 1) s

/-- `re.sub(r'^#+\s*', '', t)`: strip a leading run of `#` and the
whitespace after it (the `^` anchor fires only at the start). -/
def stripHeading (t : List Char) : List Char :=
  if t.head? = some '#' then (t.dropWhile (fun c => c = '#')).dropWhile isPySpace else t

/-- `yaml_special_chars` of `translate_yaml_fields`. -/
def yamlSpecialChars : List Char :=
  [':', '#', '[', ']', Char.ofNat 123, Char.ofNat 125, '|', '>', '&', '*', '!', '@', '`']

/-- `needs_quoting` of `translate_yaml_fields`: a special character occurs,
or the value starts with a quote, or it has leading/trailing whitespace. -/
def needsQuoting (t : List Char) : Bool :=
  yamlSpecialChars.any (fun ch => ch ∈ t)
    || t.head? = some '"' || t.head? = some aposChar
    || t ≠ pyStrip t

/-- `translated_title.replace('"', '\\"')`: escape every double quote. -/
def escapeQuotes (t : List Char) : List Char :=
  t.flatMap (fun c => if c = '"' then ['\\', '"'] else [c])

/-- The quoting step of `translate_yaml_fields`: wrap in double quotes with
embedded quotes escaped when quoting is needed, unless the value already both
starts and ends with a double quote. -/
def quoteTitle (t : List Char) : List Char :=
  if needsQuoting t ∧ ¬(t.head? = some '"' ∧ t.getLast? = some '"') then
    '"' :: escapeQuotes t ++ ['"']
  else t

/-- The value transformation chain applied to the captured title before it is
substituted back: `strip`, `strip('"\'')`, strip heading markers, `strip`,
translate (the oracle `tr`), strip heading markers, `strip`, quote. -/
def titleChain (tr : List Char → List Char) (grp : List Char) : List Char :=
  let title := pyStripQuotes (pyStrip grp)
  let title := pyStrip (stripHeading title)
  let translated := tr title
  let translated := pyStrip (stripHeading translated)
  quoteTitle translated

/-- The single-character escapes of a `re` replacement template
(`sre_parse.ESCAPES`): `\a \b \f \n \r \t \v \\` denote the corresponding
control characters (backspace for `\b`); any other ASCII letter after a
backslash is `re.error: bad escape`. -/
def templateEscape (c : Char) : Option Nat :=
  if c = 'a' then some 7
  else if c = 'b' then some 8
  else if c = 'f' then some 12
  else if c = 'n' then some 10
  else if c = 'r' then some 13
  else if c = 't' then some 9
  else if c = 'v' then some 11
  else if c = '\\' then some 92
  else none

/-- An octal digit `0`-`7`. -/
def isOctDigit (c : Char) : Bool := '0' ≤ c ∧ c ≤ '7'

/-- Continuation of a zero integer literal: digits `0` separated by single
underscores, as accepted by Python `int`. -/
def zeroRun : List Char → Bool
  | [] => true
  | '0' :: rest => zeroRun rest
  | '_' :: '0' :: rest => zeroRun rest
  | _ => false

/-- A nonempty run of `0` digits with single underscores (`0`, `00`,
`0_0`, ...). -/
def underscoredZeros : List Char → Bool
  | '0' :: rest => zeroRun rest
  | _ => false

/-- `int(name) == 0` for the `\g<name>` parse of a replacement template:
optional surrounding whitespace and sign around a zero literal.  Every
other name is an error here — a positive index exceeds the pattern's zero
groups, a negative one or junk is a bad group name, and an identifier is an
unknown group name, since `r'^title:\s*.+$'` has no groups at all. -/
def nameIsZero (name : List Char) : Bool :=
  match pyStrip name with
  | '+' :: rest => underscoredZeros rest
  | '-' :: rest => underscoredZeros rest
  | l => underscoredZeros l

/-- Everything a replacement template does after a backslash
(`sre_parse.parse_template`, specialised to a pattern with zero capturing
groups): `none` models `re.error`/`IndexError` raised by `re.sub`.
`rec` processes the remainder of the template; `m0` is the whole matched
text, inserted by a `\g<0>` reference. -/
def pyTemplateEscape (rec : List Char → Option (List Char)) (m0 : List Char) :
    List Char → Option (List Char)
  | [] => none
  | e :: rest2 =>
    if e = 'g' then
      match rest2 with
      | '<' :: rest3 =>
        if (rest3.dropWhile (fun x => x ≠ '>')) = [] then none
        else
          let name := rest3.takeWhile (fun x => x ≠ '>')
          if name = [] then none
          else if nameIsZero name then
            (rec (rest3.drop (name.length + 1))).map (fun r => m0 ++ r)
          else none
      | _ => none
    else if e = '0' then
      let ods := (rest2.takeWhile isOctDigit).take 2
      (rec (rest2.drop ods.length)).map
        (fun r => Char.ofNat (ods.foldl (fun a d => 8 * a + (d.toNat - 48)) 0) :: r)
    else if '1' ≤ e ∧ e ≤ '9' then
      match rest2 with
      | d2 :: rest3 =>
        if d2.isDigit then
          match rest3 with
          | d3 :: rest4 =>
            if isOctDigit e ∧ isOctDigit d2 ∧ isOctDigit d3 then
              if 255 < 64 * (e.toNat - 48) + 8 * (d2.toNat - 48) + (d3.toNat - 48) then
                none
              else
                (rec rest4).map (fun r =>
                  Char.ofNat (64 * (e.toNat - 48) + 8 * (d2.toNat - 48)
                    + (d3.toNat - 48)) :: r)
            else none
          | [] => none
        else none
      | [] => none
    else
      match templateEscape e with
      | some v => (rec rest2).map (fun r => Char.ofNat v :: r)
      | none =>
        if isAsciiAlpha e then none
        else (rec rest2).map (fun r => '\\' :: e :: r)

/-- Structural worker for the replacement-template scan; the fuel argument
only bounds the recursion depth (every step consumes at least one
character).  A character other than `\` is copied; `\` triggers the escape
handling, with a trailing lone `\` an error. -/
def pyTemplateF : Nat → List Char → List Char → Option (List Char)
  | 0, _, s =>
    match s with
    | [] => some []
    | _ :: _ => none
  | fuel + 1, m0, s =>
    match s with
    | [] => some []
    | c :: rest =>
      if c = '\\' then pyTemplateEscape (pyTemplateF fuel m0) m0 rest
      else (pyTemplateF fuel m0 rest).map (fun r => c :: r)

/-- Python `re.sub` replacement-template processing of `repl` for a
pattern with no capturing groups whose whole match is `m0`: `none` models
a raised `re.error`/`IndexError`. -/
def pyTemplate (m0 repl : List Char) : Option (List Char) :=
  pyTemplateF repl.length m0 repl

/-- `QMDTranslator.translate_yaml_fields`, with the remote translation
modelled by the oracle `tr`: if no title line matches, the frontmatter is
returned unchanged (and `re.sub` is never called); otherwise the first
match of `r'^title:\s*.+$'` is replaced by the template
`f'title: {translated_title}'`, which `re.sub` first processes for
replacement escapes — backslashes in the transformed title can insert
control characters, insert the whole matched text, or raise, which `none`
models (the caller treats the exception as the file's failure). -/
def translate_yaml_fields (tr : List Char → List Char) (yaml_content : List Char) :
    Option (List Char) :=
  match findTitle yaml_content with
  | none => some yaml_content
  | some (pre, ws, grp, post) =>
    match pyTemplate (titleKey ++ ws ++ grp) (titleKey ++ ' ' :: titleChain tr grp) with
    | none => none
    | some repl => some (pre ++ repl ++ post)

/-! ## Spell-check truncation (`check_spelling`)

`MAX_SPELL_CHECK_CHARS = 8000`, `TRUNCATION_THRESHOLD = 0.8`;
`8000 * 0.8 == 6400.0` exactly in floating point, so the threshold comparison
is modelled as the integer comparison with `6400`. -/

/-- Python `str.rfind(' ')`: the index of the last space, or `-1`. -/
def pyRfindSpace : List Char → Int
  | [] => -1
  | c :: t =>
    let r := pyRfindSpace t
    if r ≥ 0 then r + 1
    else if c = ' ' then 0 else -1

/-- The truncation of `check_spelling`: take the first 8000 characters; if
the content was longer and the last space in that window lies strictly after
index 6400, cut just before that space. -/
def spellCheckTruncate (content : List Char) : List Char :=
  let truncated := content.take 8000
  if 8000 < content.length then
    let lastSpace := pyRfindSpace truncated
    if 6400 < lastSpace then truncated.take lastSpace.toNat else truncated
  else truncated

/-! ## The main loop's exit status (`main`) -/

/-- What `main` observes of one input file: whether `os.path.exists` holds
and whether `translate_qmd_file` would return `True` for it. -/
structure FileJob where
  present : Bool
  translated : Bool
deriving DecidableEq, Repr

/-- The exit status of `main`: missing files are skipped; in spelling-check
mode every file `continue`s before translation; otherwise each successful
translation increments `success_count`; finally
`sys.exit(0 if success_count == len(input_files) else 1)`. -/
def mainExitCode (checkSpelling : Bool) (files : List FileJob) : Nat :=
  let successCount :=
    if checkSpelling then 0
    else files.countP (fun f => f.present && f.translated)
  if successCount = files.length then 0 else 1

/-! ## Supporting lemmas: filename-suffix language inference -/

theorem afterLastDot_append_zh (x : List Char) :
    afterLastDot (x ++ ['.', 'z', 'h']) = ['z', 'h'] := by
  simp [afterLastDot, List.takeWhile_cons]

theorem specLangSuffix_of_zhSuffix (fname : List Char)
    (h : zhQmdSuf.isSuffixOf fname = true) : specLangSuffix fname = some zhChars := by
  obtain ⟨t, ht⟩ := List.isSuffixOf_iff_suffix.mp h
  have hf : fname = (t ++ ['.', 'z', 'h']) ++ ['.', 'q', 'm', 'd'] := by
    rw [← ht]; simp [zhQmdSuf]
  have hlen : fname.length - 4 = (t ++ ['.', 'z', 'h']).length := by
    rw [hf]; simp
  have hstem : fname.take (fname.length - 4) = t ++ ['.', 'z', 'h'] := by
    rw [hlen, hf, List.take_left]
  simp only [specLangSuffix, hstem]
  rw [if_pos (by simp)]
  rw [afterLastDot_append_zh]
  simp [zhChars, isAsciiAlpha]

theorem filenameLang_of_zhSuffix (fname : List Char)
    (h : zhQmdSuf.isSuffixOf fname = true) : filenameLang fname = some .zh := by
  simp [filenameLang, h]

theorem filenameLang_eq_spec (fname : List Char) :
    filenameLang fname =
      (if zhQmdSuf.isSuffixOf fname then some Lang.zh
       else if qmdSuf.isSuffixOf fname then
         match specLangSuffix fname with
         | some p => if p = zhChars then some Lang.en else none
         | none => some Lang.en
       else none) := by
  simp only [filenameLang, specLangSuffix, Bool.and_eq_true, Bool.or_eq_true,
    decide_eq_true_eq, Bool.not_eq_true']
  split_ifs <;> (try rfl) <;> (try simp_all) <;> (try split <;> simp_all) <;> tauto

theorem filenameLang_of_plain (fname : List Char)
    (hq : qmdSuf.isSuffixOf fname = true) (hs : specLangSuffix fname = none) :
    filenameLang fname = some .en := by
  rw [filenameLang_eq_spec]
  have hzh : zhQmdSuf.isSuffixOf fname = false := by
    rcases h : zhQmdSuf.isSuffixOf fname
    · rfl
    · rw [specLangSuffix_of_zhSuffix fname h] at hs; exact Option.noConfusion hs
  simp [hzh, hq, hs]

theorem filenameLang_of_otherSuffix (fname p : List Char)
    (hq : qmdSuf.isSuffixOf fname = true) (hp : specLangSuffix fname = some p)
    (hne : p ≠ zhChars) : filenameLang fname = none := by
  rw [filenameLang_eq_spec]
  have hzh : zhQmdSuf.isSuffixOf fname = false := by
    rcases h : zhQmdSuf.isSuffixOf fname
    · rfl
    · rw [specLangSuffix_of_zhSuffix fname h] at hp
      injection hp with h'
      exact absurd h'.symm hne
  simp [hzh, hq, hp, hne]

/-- **C3.** Source-language resolution: a filename ending in `.zh.qmd`
resolves the source language to `zh`; a filename ending in `.qmd` with no
two-or-three-letter alphabetic language suffix resolves it to `en`; a
filename ending in `.qmd` with some other such suffix falls back to
content detection, which returns `zh` exactly when the Chinese-character
count exceeds the Latin-letter count times `0.3`, and `en` otherwise. -/
theorem claim3_source_language_resolution (fname body : List Char) :
    (zhQmdSuf.isSuffixOf fname = true → resolveSourceLang fname body = .zh)
    ∧ (qmdSuf.isSuffixOf fname = true → specLangSuffix fname = none →
        resolveSourceLang fname body = .en)
    ∧ (∀ p, qmdSuf.isSuffixOf fname = true → specLangSuffix fname = some p → p ≠ zhChars →
        resolveSourceLang fname body = detect_language body)
    ∧ (detect_language body = .zh ↔
        3 * (body.filter isLatinLetter).length < 10 * (body.filter isChineseChar).length) := by
  refine ⟨?_, ?_, ?_, ?_⟩
  · intro h
    simp [resolveSourceLang, filenameLang_of_zhSuffix fname h]
  · intro hq hs
    simp [resolveSourceLang, filenameLang_of_plain fname hq hs]
  · intro p hq hp hne
    simp [resolveSourceLang, filenameLang_of_otherSuffix fname p hq hp hne]
  · unfold detect_language thresholdExceeded
    constructor
    · intro h
      by_contra hc
      rw [if_neg (by simpa using hc)] at h
      exact Lang.noConfusion h
    · intro h
      rw [if_pos (by simpa using h)]

/-- Witness for C3 at the spec's own examples: `report.zh.qmd` gives source
`zh`; `report.qmd` gives `en`; `report.fr.qmd` with an English-majority body
falls back to content detection, which classifies `"hello world"` as `en`. -/
theorem claim3_witness :
    resolveSourceLang ("report.zh.qmd".data) ("hello world".data) = .zh
    ∧ resolveSourceLang ("report.qmd".data) ("hello world".data) = .en
    ∧ resolveSourceLang ("report.fr.qmd".data) ("hello world".data)
        = detect_language ("hello world".data)
    ∧ detect_language ("hello world".data) = .en := by
  refine ⟨(claim3_source_language_resolution _ _).1 (by decide),
    (claim3_source_language_resolution _ _).2.1 (by decide) (by decide),
    (claim3_source_language_resolution _ _).2.2.1 ("fr".data) (by decide) (by decide) (by decide),
    by decide⟩

/-- **C4.** Target-language resolution precedence: an explicit caller-supplied
target language is used if present; otherwise a language implied by the output
filename under the same suffix rule as the source rule; otherwise the opposite
of the resolved source language. -/
theorem claim4_target_language_resolution (explicitTarget : Option Lang)
    (outName : List Char) (src : Lang) :
    (∀ l, explicitTarget = some l → resolveTargetLang explicitTarget outName src = l)
    ∧ (explicitTarget = none → zhQmdSuf.isSuffixOf outName = true →
        resolveTargetLang explicitTarget outName src = .zh)
    ∧ (explicitTarget = none → qmdSuf.isSuffixOf outName = true →
        specLangSuffix outName = none →
        resolveTargetLang explicitTarget outName src = .en)
    ∧ (explicitTarget = none → filenameLang outName = none →
        resolveTargetLang explicitTarget outName src = oppositeLang src) := by
  refine ⟨?_, ?_, ?_, ?_⟩
  · intro l h
    simp [resolveTargetLang, h]
  · intro he h
    simp [resolveTargetLang, he, filenameLang_of_zhSuffix outName h]
  · intro he hq hs
    simp [resolveTargetLang, he, filenameLang_of_plain outName hq hs]
  · intro he hn
    simp [resolveTargetLang, he, hn]

/-- Witness for C4: an explicit `en` target wins; with no explicit target the
output name `out.zh.qmd` forces `zh` and `out.qmd` forces `en`; with an
undecidable output name `out.fr.qmd` the target defaults to the opposite of
the source (`en ↦ zh`). -/
theorem claim4_witness :
    resolveTargetLang (some .en) ("out.zh.qmd".data) .zh = .en
    ∧ resolveTargetLang none ("out.zh.qmd".data) .en = .zh
    ∧ resolveTargetLang none ("out.qmd".data) .zh = .en
    ∧ resolveTargetLang none ("out.fr.qmd".data) .en = .zh := by
  refine ⟨(claim4_target_language_resolution _ _ _).1 .en rfl,
    (claim4_target_language_resolution _ _ _).2.1 rfl (by decide),
    (claim4_target_language_resolution _ _ _).2.2.1 rfl (by decide) (by decide),
    (claim4_target_language_resolution _ _ _).2.2.2 rfl (by decide)⟩

/-- The claim C8 as stated: the process exits `0` iff every input file was
translated successfully; and in spelling-check mode the exit code reflects
only that the files existed and were checked. -/
def claim8Statement : Prop :=
  ∀ (files : List FileJob),
    (mainExitCode false files = 0 ↔ ∀ f ∈ files, f.present = true ∧ f.translated = true)
    ∧ (mainExitCode true files = 0 ↔ ∀ f ∈ files, f.present = true)

/-- **C8 (counterexample).** In spelling-check mode on a single existing
file, the process exits `1`, not `0`: the exit code does not reflect that the
file existed and was checked, refuting the claim as stated. -/
theorem claim8_counterexample : ¬ claim8Statement := by
  intro h
  have h2 := (h [⟨true, true⟩]).2
  have : mainExitCode true [⟨true, true⟩] = 0 := h2.mpr (by decide)
  exact absurd this (by decide)

/-- **C8 (amended).** The exit status is `0` iff every input file was
translated successfully; in spelling-check mode (translation skipped for
every file, so the success count stays zero) the process always exits `1`
when at least one input file is given. -/
theorem claim8_amended (files : List FileJob) :
    (mainExitCode false files = 0 ↔ ∀ f ∈ files, f.present = true ∧ f.translated = true)
    ∧ (files ≠ [] → mainExitCode true files = 1) := by
  constructor
  · unfold mainExitCode
    simp only [if_neg, Bool.false_eq_true, if_false]
    constructor
    · intro h
      have hcount : files.countP (fun f => f.present && f.translated) = files.length := by
        by_contra hc
        rw [if_neg hc] at h
        exact one_ne_zero h
      intro f hf
      have := (List.countP_eq_length ..).mp hcount f hf
      simpa [Bool.and_eq_true] using this
    · intro h
      rw [if_pos ((List.countP_eq_length ..).mpr (by
        intro f hf
        simpa [Bool.and_eq_true] using h f hf))]
  · intro hne
    unfold mainExitCode
    rw [if_pos rfl, if_neg (by
      intro hc
      exact hne (List.length_eq_zero.mp hc.symm))]

/-- Witness for C8 (amended): one present, successfully translated file gives
exit status `0` in normal mode; the same file gives exit status `1` in
spelling-check mode. -/
theorem claim8_witness :
    mainExitCode false [⟨true, true⟩] = 0 ∧ mainExitCode true [⟨true, true⟩] = 1 :=
  ⟨(claim8_amended [⟨true, true⟩]).1.mpr (by decide),
   (claim8_amended [⟨true, true⟩]).2 (by decide)⟩

/-! ## C5: title quoting -/

/-- The claim C5 as stated: any translated title value containing a
metadata-structural character is emitted wrapped in double quotes with
embedded double quotes escaped, and a value with no such character is
emitted unquoted. -/
def claim5Statement : Prop :=
  ∀ t : List Char,
    (yamlSpecialChars.any (fun ch => ch ∈ t) = true →
      quoteTitle t = '"' :: escapeQuotes t ++ ['"'])
    ∧ (yamlSpecialChars.any (fun ch => ch ∈ t) = false → quoteTitle t = t)

/-- **C5 (counterexample).** The translated title `"A: B" and "C"` contains a
colon, but since it already both starts and ends with a double quote the code
emits it verbatim: it is neither wrapped nor are its embedded double quotes
escaped, refuting the claim as stated. -/
theorem claim5_counterexample : ¬ claim5Statement := by
  intro h
  have := (h ('"' :: 'A' :: ':' :: ' ' :: 'B' :: '"' :: ' ' :: 'a' :: 'n' :: 'd' ::
      ' ' :: '"' :: 'C' :: '"' :: [])).1 (by decide)
  exact absurd this (by decide)

/-- **C5 (amended).** A translated title containing a metadata-structural
character is emitted wrapped in double quotes with embedded double quotes
escaped, unless it already both starts and ends with a double quote, in which
case it is emitted verbatim; a title with no such character is emitted
unquoted provided it does not start with a double or single quote (titles
reaching this step are already whitespace-stripped). -/
theorem claim5_amended (t : List Char) :
    (yamlSpecialChars.any (fun ch => ch ∈ t) = true →
      ¬(t.head? = some '"' ∧ t.getLast? = some '"') →
      quoteTitle t = '"' :: escapeQuotes t ++ ['"'])
    ∧ (t.head? = some '"' → t.getLast? = some '"' → quoteTitle t = t)
    ∧ (yamlSpecialChars.any (fun ch => ch ∈ t) = false → t.head? ≠ some '"' →
      t.head? ≠ some aposChar → t = pyStrip t → quoteTitle t = t) := by
  refine ⟨?_, ?_, ?_⟩
  · intro hany hq
    unfold quoteTitle
    rw [if_pos ⟨by simp [needsQuoting, hany], hq⟩]
  · intro h1 h2
    unfold quoteTitle
    rw [if_neg (by
      intro hc
      exact hc.2 ⟨h1, h2⟩)]
  · intro hany h1 h2 h3
    unfold quoteTitle
    rw [if_neg (by
      intro hc
      have := hc.1
      simp only [needsQuoting, hany, Bool.false_or, Bool.or_eq_true, decide_eq_true_eq] at this
      rcases this with (h | h) | h
      · exact h1 h
      · exact h2 h
      · exact h h3)]

/-- Witness for C5 (amended): `Gene: Expression Study` (colon, not already
quoted) is emitted wrapped in double quotes; `Simple Study` (no structural
character) is emitted unquoted. -/
theorem claim5_witness :
    quoteTitle ("Gene: Expression Study".data)
      = '"' :: escapeQuotes ("Gene: Expression Study".data) ++ ['"']
    ∧ quoteTitle ("Simple Study".data) = "Simple Study".data :=
  ⟨(claim5_amended _).1 (by decide) (by decide),
   (claim5_amended _).2.2 (by decide) (by decide) (by decide) (by decide)⟩

/-! ## C6: spell-check truncation -/

/-- Indexing into `replicate n a ++ c :: replicate m b`. -/
theorem sentinel_getElem (n m : Nat) (a c b : Char) (j : Nat) :
    (List.replicate n a ++ c :: List.replicate m b)[j]? =
      (if j < n then some a else if j = n then some c
       else if j < n + 1 + m then some b else none) := by
  by_cases h1 : j < n
  · rw [List.getElem?_append_left (by simpa using h1)]
    simp [List.getElem?_replicate, h1]
  · rw [List.getElem?_append_right (by simpa using h1)]
    by_cases h2 : j = n
    · simp [h2]
    · have h3 : 1 ≤ j - n := by omega
      rcases Nat.exists_eq_add_of_le h3 with ⟨k, hk⟩
      have : j - List.length (List.replicate n a) = k + 1 := by simp; omega
      rw [this]
      simp only [List.getElem?_cons_succ, List.getElem?_replicate]
      by_cases h4 : k < m
      · rw [if_pos h4, if_neg h1, if_neg h2, if_pos (by omega)]
      · rw [if_neg h4, if_neg h1, if_neg h2, if_neg (by omega)]

/-- Characterization of `str.rfind(' ')`: either there is no space and the
result is `-1`, or the result is the index of the last space. -/
theorem pyRfindSpace_spec (s : List Char) :
    (pyRfindSpace s = -1 ∧ ∀ j : Nat, s[j]? ≠ some ' ')
    ∨ (∃ k : Nat, pyRfindSpace s = (k : Int) ∧ s[k]? = some ' '
        ∧ ∀ j : Nat, k < j → s[j]? ≠ some ' ') := by
  induction s with
  | nil => exact Or.inl ⟨rfl, by simp⟩
  | cons c t ih =>
    rcases ih with ⟨h1, h2⟩ | ⟨k, h1, h2, h3⟩
    · by_cases hc : c = ' '
      · refine Or.inr ⟨0, ?_, by simp [hc], ?_⟩
        · simp [pyRfindSpace, h1, hc]
        · intro j hj
          cases j with
          | zero => omega
          | succ i => simpa using h2 i
      · refine Or.inl ⟨by simp [pyRfindSpace, h1, hc], ?_⟩
        intro j
        cases j with
        | zero => simpa using hc
        | succ i => simpa using h2 i
    · have hnn : pyRfindSpace t ≥ 0 := by rw [h1]; omega
      refine Or.inr ⟨k + 1, ?_, by simpa using h2, ?_⟩
      · simp only [pyRfindSpace, h1]
        rw [if_pos (by omega : (k : Int) ≥ 0)]
        push_cast
        ring
      · intro j hj
        cases j with
        | zero => omega
        | succ i =>
          simp only [List.getElem?_cons_succ]
          exact h3 i (by omega)

/-- From the spec's words: `i` is the position of the last whitespace
boundary within the first 8000 characters of `content`. -/
def specIsLastWsIn8000 (content : List Char) (i : Nat) : Prop :=
  i < 8000 ∧ (∃ c, content[i]? = some c ∧ isPySpace c = true)
    ∧ ∀ j c, j < 8000 → content[j]? = some c → isPySpace c = true → j ≤ i

/-- From the spec's words specialised to the space character: `i` is the
position of the last space within the first 8000 characters of `content`. -/
def specIsLastSpaceIn8000 (content : List Char) (i : Nat) : Prop :=
  i < 8000 ∧ content[i]? = some ' '
    ∧ ∀ j, j < 8000 → content[j]? = some ' ' → j ≤ i

/-- The claim C6 as stated: inputs of at most 8000 characters pass through
unchanged; longer inputs are cut at the last whitespace boundary within the
first 8000 characters when that boundary lies after position 6400, and
otherwise the full 8000-character prefix is sent. -/
def claim6Statement : Prop :=
  ∀ content : List Char,
    (content.length ≤ 8000 → spellCheckTruncate content = content)
    ∧ (8000 < content.length →
        (∀ i, specIsLastWsIn8000 content i → 6400 < i →
          spellCheckTruncate content = content.take i)
        ∧ ((∀ i, specIsLastWsIn8000 content i → i ≤ 6400) →
          spellCheckTruncate content = content.take 8000))

/-- **C6 (counterexample).** A 9001-character input whose only whitespace in
the truncation window is a newline at index 6401 (after position 6400) is
sent as the full 8000-character prefix: `rfind(' ')` ignores non-space
whitespace, so the cut demanded by the claim at the newline boundary never
happens, refuting the claim as stated. -/
theorem claim6_counterexample : ¬ claim6Statement := by
  intro h
  set content := List.replicate 6401 'a' ++ '\n' :: List.replicate 2599 'a' with hc
  have hlen : content.length = 9001 := by
    rw [hc]
    simp only [List.length_append, List.length_replicate, List.length_cons]
  have hspec : specIsLastWsIn8000 content 6401 := by
    refine ⟨by omega, ⟨'\n', ?_, by decide⟩, ?_⟩
    · rw [hc, sentinel_getElem]
      norm_num
    · intro j c hj hjc hws
      by_contra hgt
      push_neg at hgt
      rw [hc, sentinel_getElem] at hjc
      rw [if_neg (by omega), if_neg (by omega)] at hjc
      by_cases hlt : j < 6401 + 1 + 2599
      · rw [if_pos hlt] at hjc
        injection hjc with h'
        rw [← h'] at hws
        exact absurd hws (by decide)
      · rw [if_neg hlt] at hjc
        exact Option.noConfusion hjc
  have happ := ((h content).2 (by omega)).1 6401 hspec (by omega)
  have hcode : spellCheckTruncate content = content.take 8000 := by
    unfold spellCheckTruncate
    rw [if_pos (by omega)]
    have hnosp : pyRfindSpace (content.take 8000) = -1 := by
      rcases pyRfindSpace_spec (content.take 8000) with ⟨h1, _⟩ | ⟨k, _, h2, _⟩
      · exact h1
      · exfalso
        have hk8 : k < 8000 := by
          by_contra hk
          rw [List.getElem?_eq_none (by simp only [List.length_take]; omega)] at h2
          exact Option.noConfusion h2
        rw [List.getElem?_take_of_lt hk8, hc, sentinel_getElem] at h2
        split_ifs at h2 <;>
          first
          | exact Option.noConfusion h2
          | (injection h2 with h2e; exact absurd h2e (by decide))
    rw [hnosp]
    norm_num
  rw [hcode] at happ
  have hlens := congrArg List.length happ
  rw [List.length_take, List.length_take, hlen] at hlens
  omega

/-- **C6 (amended).** For inputs of at most 8000 characters the text sent
for checking is the input unchanged; for longer inputs the text is cut at
the last *space* (`' '`) within the first 8000 characters whenever that
space lies strictly after position 6400, and otherwise (no space there, or
only at or before 6400) the full 8000-character prefix is sent — other
whitespace such as newlines and tabs is not treated as a boundary. -/
theorem claim6_amended (content : List Char) (i : Nat) :
    (content.length ≤ 8000 → spellCheckTruncate content = content)
    ∧ (8000 < content.length → specIsLastSpaceIn8000 content i → 6400 < i →
        spellCheckTruncate content = content.take i)
    ∧ (8000 < content.length → (∀ j, specIsLastSpaceIn8000 content j → j ≤ 6400) →
        spellCheckTruncate content = content.take 8000) := by
  refine ⟨?_, ?_, ?_⟩
  · intro h
    unfold spellCheckTruncate
    rw [if_neg (by omega), List.take_of_length_le h]
  · rintro hlen ⟨hi8, hich, himax⟩ hi64
    unfold spellCheckTruncate
    rw [if_pos (by omega)]
    rcases pyRfindSpace_spec (content.take 8000) with ⟨_, h2⟩ | ⟨k, h1, h2, h3⟩
    · exact absurd (by rw [List.getElem?_take_of_lt hi8]; exact hich) (h2 i)
    · have hk8 : k < 8000 := by
        by_contra hk
        rw [List.getElem?_eq_none (by simp; omega)] at h2
        exact Option.noConfusion h2
      have hkc : content[k]? = some ' ' := by
        rw [List.getElem?_take_of_lt hk8] at h2
        exact h2
      have hik : i = k := by
        have hki : k ≤ i := himax k hk8 hkc
        have hik' : ¬ k < i := by
          intro hgt
          exact h3 i hgt (by rw [List.getElem?_take_of_lt hi8]; exact hich)
        omega
      rw [h1, if_pos (by exact_mod_cast (by omega : (6400 : Int) < (k : Int)))]
      rw [Int.toNat_natCast, List.take_take, min_eq_left (by omega), hik]
  · intro hlen hmax
    unfold spellCheckTruncate
    rw [if_pos (by omega)]
    rcases pyRfindSpace_spec (content.take 8000) with ⟨h1, _⟩ | ⟨k, h1, h2, h3⟩
    · rw [h1]
      norm_num
    · have hk8 : k < 8000 := by
        by_contra hk
        rw [List.getElem?_eq_none (by simp; omega)] at h2
        exact Option.noConfusion h2
      have hkc : content[k]? = some ' ' := by
        rw [List.getElem?_take_of_lt hk8] at h2
        exact h2
      have hkspec : specIsLastSpaceIn8000 content k := by
        refine ⟨hk8, hkc, ?_⟩
        intro j hj hjc
        by_contra hgt
        push_neg at hgt
        exact h3 j hgt (by rw [List.getElem?_take_of_lt hj]; exact hjc)
      have hk64 := hmax k hkspec
      rw [h1, if_neg (by exact_mod_cast (by omega : ¬ (6400 : Int) < (k : Int)))]

/-- Witness for C6 (amended): a 9001-character input whose last space in the
window sits at index 6500 (after 6400) is cut exactly there; a short input
passes through unchanged. -/
theorem claim6_witness :
    spellCheckTruncate (List.replicate 6500 'a' ++ ' ' :: List.replicate 2500 'b')
      = (List.replicate 6500 'a' ++ ' ' :: List.replicate 2500 'b').take 6500
    ∧ spellCheckTruncate ("short text".data) = "short text".data := by
  constructor
  · refine (claim6_amended _ 6500).2.1
      (by simp only [List.length_append, List.length_replicate, List.length_cons]; omega)
      ⟨by omega, ?_, ?_⟩ (by omega)
    · rw [sentinel_getElem]
      norm_num
    · intro j hj hjc
      by_contra hgt
      push_neg at hgt
      rw [sentinel_getElem] at hjc
      rw [if_neg (by omega), if_neg (by omega)] at hjc
      split_ifs at hjc <;>
        first
        | exact Option.noConfusion hjc
        | (injection hjc with hje; exact absurd hje (by decide))
  · exact (claim6_amended _ 0).1 (by decide)

/-! ## C2 / C7: frontmatter splitting -/

theorem wsNlCandAux_mem (s : List Char) (i k : Nat) (h : k ∈ wsNlCandAux s i) :
    i ≤ k ∧ s[k - i]? = some '\n' := by
  induction s generalizing i with
  | nil => simp [wsNlCandAux] at h
  | cons c t ih =>
    unfold wsNlCandAux at h
    by_cases hws : isPySpace c
    · rw [if_pos hws] at h
      by_cases hnl : c = '\n'
      · rw [if_pos hnl] at h
        rcases List.mem_append.mp h with h' | h'
        · obtain ⟨h1, h2⟩ := ih (i + 1) h'
          refine ⟨by omega, ?_⟩
          have : k - i = (k - (i + 1)) + 1 := by omega
          rw [this, List.getElem?_cons_succ]
          exact h2
        · have hk : k = i := by simpa using h'
          subst hk
          simp [hnl]
      · rw [if_neg hnl] at h
        obtain ⟨h1, h2⟩ := ih (i + 1) h
        refine ⟨by omega, ?_⟩
        have : k - i = (k - (i + 1)) + 1 := by omega
        rw [this, List.getElem?_cons_succ]
        exact h2
    · rw [if_neg hws] at h
      simp at h

/-- Splitting a list at a position known to hold a newline. -/
theorem split_at_newline (s : List Char) (k : Nat) (h : s[k]? = some '\n') :
    s = s.take k ++ '\n' :: s.drop (k + 1) := by
  have hk : k < s.length := by
    by_contra hc
    rw [List.getElem?_eq_none (by omega)] at h
    exact Option.noConfusion h
  conv_lhs => rw [← List.take_append_drop k s]
  rw [List.drop_eq_getElem_cons hk]
  have : s[k] = '\n' := by
    rw [List.getElem?_eq_getElem hk] at h
    injection h
  rw [this]

theorem closeTailFM_sound (s w2 rest : List Char) (h : closeTailFM s = some (w2, rest)) :
    s = w2 ++ '\n' :: rest := by
  unfold closeTailFM at h
  rcases hc : wsNlCandAux s 0 with _ | ⟨k, ks⟩
  · rw [hc] at h
    exact Option.noConfusion h
  · rw [hc] at h
    injection h with h'
    obtain ⟨h1, h2⟩ := wsNlCandAux_mem s 0 k (by rw [hc]; exact List.mem_cons_self ..)
    rw [Nat.sub_zero] at h2
    injection h' with ha hb
    rw [← ha, ← hb]
    exact split_at_newline s k h2

theorem findCloseFM_sound (s : List Char) :
    ∀ inner w2 rest, findCloseFM s = some (inner, w2, rest) →
      s = inner ++ '\n' :: '-' :: '-' :: '-' :: (w2 ++ '\n' :: rest) := by
  induction s with
  | nil => intro inner w2 rest h; exact Option.noConfusion h
  | cons c t ih =>
    intro inner w2 rest h
    unfold findCloseFM at h
    by_cases hcond : c = '\n' ∧ ['-', '-', '-'].isPrefixOf t
    · rw [if_pos hcond] at h
      obtain ⟨t3, ht3⟩ := List.isPrefixOf_iff_prefix.mp hcond.2
      have htd : t.drop 3 = t3 := by rw [← ht3]; rfl
      rcases hct : closeTailFM (t.drop 3) with _ | ⟨cw2, crest⟩
      · rw [hct] at h
        rcases hrec : findCloseFM t with _ | ⟨⟨rinner, rw2, rrest⟩⟩
        · rw [hrec] at h
          exact Option.noConfusion h
        · rw [hrec] at h
          injection h with h'
          simp only [Prod.mk.injEq] at h'
          obtain ⟨h1, h2, h3⟩ := h'
          subst h1 h2 h3
          rw [ih rinner rw2 rrest hrec]
          simp
      · rw [hct] at h
        injection h with h'
        simp only [Prod.mk.injEq] at h'
        obtain ⟨h1, h2, h3⟩ := h'
        subst h1 h2 h3
        have hsound := closeTailFM_sound (t.drop 3) cw2 crest hct
        rw [htd] at hsound
        rw [hcond.1, ← ht3, hsound]
        simp
    · rw [if_neg hcond] at h
      rcases hrec : findCloseFM t with _ | ⟨⟨rinner, rw2, rrest⟩⟩
      · rw [hrec] at h
        exact Option.noConfusion h
      · rw [hrec] at h
        injection h with h'
        simp only [Prod.mk.injEq] at h'
        obtain ⟨h1, h2, h3⟩ := h'
        subst h1 h2 h3
        rw [ih rinner rw2 rrest hrec]
        simp

theorem tryOpensFM_sound (s3 : List Char) (ks : List Nat)
    (hks : ∀ k ∈ ks, s3[k]? = some '\n') :
    ∀ w1 inner w2 rest, tryOpensFM s3 ks = some (w1, inner, w2, rest) →
      s3 = w1 ++ '\n' :: inner ++ '\n' :: '-' :: '-' :: '-' :: (w2 ++ '\n' :: rest) := by
  induction ks with
  | nil => intro w1 inner w2 rest h; exact Option.noConfusion h
  | cons k ks ih =>
    intro w1 inner w2 rest h
    unfold tryOpensFM at h
    rcases hfc : findCloseFM (s3.drop (k + 1)) with _ | ⟨⟨finner, fw2, frest⟩⟩
    · rw [hfc] at h
      exact ih (fun j hj => hks j (List.mem_cons_of_mem k hj)) w1 inner w2 rest h
    · rw [hfc] at h
      injection h with h'
      simp only [Prod.mk.injEq] at h'
      obtain ⟨h1, h2, h3, h4⟩ := h'
      subst h1 h2 h3 h4
      have hk := hks k (List.mem_cons_self ..)
      have hsplit := split_at_newline s3 k hk
      have hfs := findCloseFM_sound (s3.drop (k + 1)) finner fw2 frest hfc
      conv_lhs => rw [hsplit]
      rw [hfs]
      simp

theorem matchFM_sound (content w1 inner w2 rest : List Char)
    (h : matchFM content = some (w1, inner, w2, rest)) :
    content = '-' :: '-' :: '-' ::
      (w1 ++ '\n' :: inner ++ '\n' :: '-' :: '-' :: '-' :: (w2 ++ '\n' :: rest)) := by
  unfold matchFM at h
  split at h
  · rename_i t
    have := tryOpensFM_sound t (wsNlCandAux t 0)
      (fun k hk => by simpa using (wsNlCandAux_mem t 0 k hk).2) w1 inner w2 rest h
    rw [this]
  · exact Option.noConfusion h

/-- From the spec's words: a document with a well-formed leading metadata
block — a marker line `---` at the very start, arbitrary block content, and a
matching marker line `---` on its own line after it. -/
def specWellFormedFM (content : List Char) : Prop :=
  ∃ inner rest, content = dashes3 ++ '\n' :: inner ++ '\n' :: dashes3 ++ '\n' :: rest

/-- The claim C2 as stated: for every document with a well-formed leading
metadata block, the two components returned by the splitter concatenate back
to the document, byte for byte. -/
def claim2Statement : Prop :=
  ∀ content f b, specWellFormedFM content →
    extract_yaml_frontmatter content = (f, b) → f ++ b = content

/-- **C2 (counterexample).** The well-formed document
`---\nt\n---\n\nb` (frontmatter followed by a blank line before the body,
both delimiters exactly `---`) is split into `---\nt\n---\n` and `b`: the
closing `\s*` of the pattern swallows the blank line, so concatenation drops
one newline and does not reconstruct the document. -/
theorem claim2_counterexample : ¬ claim2Statement := by
  intro h
  have hwf : specWellFormedFM ("---\nt\n---\n\nb".data) :=
    ⟨['t'], ['\n', 'b'], by decide⟩
  have := h ("---\nt\n---\n\nb".data)
    (extract_yaml_frontmatter ("---\nt\n---\n\nb".data)).1
    (extract_yaml_frontmatter ("---\nt\n---\n\nb".data)).2 hwf rfl
  exact absurd this (by decide)

/-- **C2 (amended).** If the matcher succeeds and the whitespace consumed by
both `\s*` parts of the pattern is empty — the opening `---` is immediately
followed by its newline and the closing `---` likewise — then frontmatter and
body concatenate back to the document exactly.  (When either `\s*` part is
nonempty, that whitespace is normalized away and the concatenation differs
from the document by exactly those characters.) -/
theorem claim2_amended (content w1 inner w2 rest : List Char)
    (h : matchFM content = some (w1, inner, w2, rest)) (h1 : w1 = []) (h2 : w2 = []) :
    (extract_yaml_frontmatter content).1 ++ (extract_yaml_frontmatter content).2 = content := by
  have hs := matchFM_sound content w1 inner w2 rest h
  subst h1 h2
  unfold extract_yaml_frontmatter
  rw [h, hs]
  simp [dashes3]

/-- Witness for C2 (amended): on `---\ntitle: x\n---\nbody` the matcher
succeeds with empty delimiter whitespace and split-then-concatenate is the
identity. -/
theorem claim2_witness :
    matchFM ("---\ntitle: x\n---\nbody".data)
      = some ([], "title: x".data, [], "body".data)
    ∧ (extract_yaml_frontmatter ("---\ntitle: x\n---\nbody".data)).1
        ++ (extract_yaml_frontmatter ("---\ntitle: x\n---\nbody".data)).2
      = "---\ntitle: x\n---\nbody".data :=
  ⟨by decide,
   claim2_amended ("---\ntitle: x\n---\nbody".data) [] ("title: x".data) [] ("body".data)
     (by decide) rfl rfl⟩

/-! ## C7: delimiter recognition -/

/-- From the spec's words: a delimiter line consisting solely of three or
more `-` characters. -/
def specDashLine (l : List Char) : Prop := 3 ≤ l.length ∧ ∀ c ∈ l, c = '-'

/-- The claim C7 as stated (detection part): any document whose first line
consists solely of three or more dashes, followed by content, followed by
another such line, has its block returned as frontmatter. -/
def claim7Statement : Prop :=
  ∀ d1 mid d2 rest : List Char, specDashLine d1 → specDashLine d2 →
    (extract_yaml_frontmatter (d1 ++ '\n' :: mid ++ '\n' :: d2 ++ '\n' :: rest)).1 ≠ []

/-- **C7 (counterexample).** A document delimited by lines of FOUR dashes,
`----\nx\n----\ny`, is not split at all: the pattern accepts only exactly
three dashes (followed by optional whitespace), so `re.match` fails and the
splitter returns `("", full text)`, refuting "three or more". -/
theorem claim7_counterexample : ¬ claim7Statement := by
  intro h
  exact h ("----".data) ['x'] ("----".data) ['y']
    ⟨by decide, by decide⟩ ⟨by decide, by decide⟩ (by decide)

theorem findCloseFM_ne_none_of_close (x r : List Char) :
    findCloseFM (x ++ '\n' :: '-' :: '-' :: '-' :: '\n' :: r) ≠ none := by
  induction x with
  | nil =>
    simp only [List.nil_append, findCloseFM]
    rcases hc2 : closeTailFM (List.drop 3 ('-' :: '-' :: '-' :: '\n' :: r)) with _ | ⟨w2, rest⟩
    · exfalso
      have hct : (closeTailFM (('\n' :: r) : List Char)).isSome := by
        unfold closeTailFM
        have hw : wsNlCandAux ('\n' :: r) 0 = wsNlCandAux r 1 ++ [0] := by
          simp [wsNlCandAux, isPySpace]
        rw [hw]
        rcases wsNlCandAux r 1 with _ | ⟨k, ks⟩ <;> simp
      rw [show (List.drop 3 ('-' :: '-' :: '-' :: '\n' :: r)) = ('\n' :: r) from rfl] at hc2
      rw [hc2] at hct
      exact absurd hct (by simp)
    · simp [List.isPrefixOf]
  | cons c x ih =>
    simp only [List.cons_append, findCloseFM, List.append_eq]
    by_cases hcond : c = '\n' ∧ ['-', '-', '-'].isPrefixOf (x ++ '\n' :: '-' :: '-' :: '-' :: '\n' :: r)
    · rw [if_pos hcond]
      rcases hct : closeTailFM ((x ++ '\n' :: '-' :: '-' :: '-' :: '\n' :: r).drop 3) with _ | ⟨w2, rest⟩
      · rcases hrec : findCloseFM (x ++ '\n' :: '-' :: '-' :: '-' :: '\n' :: r) with _ | p
        · exact absurd hrec ih
        · simp
      · simp
    · rw [if_neg hcond]
      rcases hrec : findCloseFM (x ++ '\n' :: '-' :: '-' :: '-' :: '\n' :: r) with _ | p
      · exact absurd hrec ih
      · simp

theorem tryOpensFM_ne_none (s3 : List Char) (ks : List Nat) (k : Nat) (hk : k ∈ ks)
    (h : findCloseFM (s3.drop (k + 1)) ≠ none) : tryOpensFM s3 ks ≠ none := by
  induction ks with
  | nil => simp at hk
  | cons k' ks ih =>
    unfold tryOpensFM
    rcases hfc : findCloseFM (s3.drop (k' + 1)) with _ | ⟨⟨finner, fw2, frest⟩⟩
    · rcases List.mem_cons.mp hk with h' | h'
      · subst h'
        exact absurd hfc h
      · exact ih h'
    · simp

theorem zero_mem_wsNlCandAux_cons (r : List Char) :
    0 ∈ wsNlCandAux ('\n' :: r) 0 := by
  unfold wsNlCandAux
  rw [if_pos (by decide), if_pos rfl]
  simp

/-- **C7 (amended).** The delimiters the splitter accepts are lines of
exactly three dashes: a document whose first line starts with four or more
dashes is returned unsplit as `("", full text)`; a document of the form
`---\n…\n---\n…` (exactly three dashes) does have a block detected and
returned; and whenever the matcher fails the splitter returns
`("", full text unchanged)`. -/
theorem claim7_amended :
    (∀ t : List Char, extract_yaml_frontmatter ('-' :: '-' :: '-' :: '-' :: t)
        = ([], '-' :: '-' :: '-' :: '-' :: t))
    ∧ (∀ mid rest : List Char,
        (extract_yaml_frontmatter
          (dashes3 ++ '\n' :: mid ++ '\n' :: dashes3 ++ '\n' :: rest)).1 ≠ [])
    ∧ (∀ content : List Char, matchFM content = none →
        extract_yaml_frontmatter content = ([], content)) := by
  refine ⟨?_, ?_, ?_⟩
  · intro t
    have hm : matchFM ('-' :: '-' :: '-' :: '-' :: t) = none := by
      have hw : wsNlCandAux ('-' :: t) 0 = [] := by
        simp only [wsNlCandAux]
        rw [if_neg (by decide)]
      simp only [matchFM, hw]
      rfl
    unfold extract_yaml_frontmatter
    rw [hm]
  · intro mid rest
    have hshape : dashes3 ++ '\n' :: mid ++ '\n' :: dashes3 ++ '\n' :: rest
        = '-' :: '-' :: '-' :: ('\n' :: (mid ++ '\n' :: '-' :: '-' :: '-' :: '\n' :: rest)) := by
      simp [dashes3]
    rw [hshape]
    have hdrop : (('\n' :: (mid ++ '\n' :: '-' :: '-' :: '-' :: '\n' :: rest)) : List Char).drop 1
        = mid ++ '\n' :: '-' :: '-' :: '-' :: '\n' :: rest := rfl
    have hne : tryOpensFM ('\n' :: (mid ++ '\n' :: '-' :: '-' :: '-' :: '\n' :: rest))
        (wsNlCandAux ('\n' :: (mid ++ '\n' :: '-' :: '-' :: '-' :: '\n' :: rest)) 0) ≠ none := by
      refine tryOpensFM_ne_none _ _ 0 (zero_mem_wsNlCandAux_cons _) ?_
      rw [hdrop]
      exact findCloseFM_ne_none_of_close mid rest
    have hmr : matchFM ('-' :: '-' :: '-' :: ('\n' :: (mid ++ '\n' :: '-' :: '-' :: '-' :: '\n' :: rest)))
        = tryOpensFM ('\n' :: (mid ++ '\n' :: '-' :: '-' :: '-' :: '\n' :: rest))
            (wsNlCandAux ('\n' :: (mid ++ '\n' :: '-' :: '-' :: '-' :: '\n' :: rest)) 0) := by
      simp only [matchFM]
    rcases hm : tryOpensFM ('\n' :: (mid ++ '\n' :: '-' :: '-' :: '-' :: '\n' :: rest))
        (wsNlCandAux ('\n' :: (mid ++ '\n' :: '-' :: '-' :: '-' :: '\n' :: rest)) 0)
        with _ | ⟨⟨w1, inner, w2, rrest⟩⟩
    · exact absurd hm hne
    · unfold extract_yaml_frontmatter
      rw [hmr, hm]
      simp
  · intro content hm
    unfold extract_yaml_frontmatter
    rw [hm]

/-- Witness for C7 (amended): a four-dash document is returned unsplit; an
exactly-three-dash document has a nonempty frontmatter detected; a document
with no metadata block at all is returned unchanged. -/
theorem claim7_witness :
    extract_yaml_frontmatter ("----\nx\n----\ny".data) = ([], "----\nx\n----\ny".data)
    ∧ (extract_yaml_frontmatter ("---\nx\n---\nbody".data)).1 ≠ []
    ∧ extract_yaml_frontmatter ("plain text".data) = ([], "plain text".data) :=
  ⟨claim7_amended.1 ("\nx\n----\ny".data),
   claim7_amended.2.1 ['x'] ("body".data),
   claim7_amended.2.2 ("plain text".data) (by decide)⟩

/-! ## C9: frame property of frontmatter title translation -/

theorem bestWsSplit_some (r : List Char) :
    ∀ m k, bestWsSplit r m = some k → r.drop k ≠ [] := by
  intro m
  induction m with
  | zero =>
    intro k h
    unfold bestWsSplit at h
    split_ifs at h with hc
    injection h with h'
    rw [← h']
    exact hc.1
  | succ m ih =>
    intro k h
    unfold bestWsSplit at h
    split_ifs at h with hc
    · injection h with h'
      rw [← h']
      exact hc.1
    · exact ih k h

theorem titleValMatch_sound (r ws grp : List Char) (h : titleValMatch r = some (ws, grp)) :
    r = ws ++ grp ++ r.drop (ws.length + grp.length) := by
  unfold titleValMatch at h
  rcases hb : bestWsSplit r ((r.takeWhile isPySpace).length) with _ | k
  · rw [hb] at h
    exact Option.noConfusion h
  · rw [hb] at h
    injection h with h'
    simp only [Prod.mk.injEq] at h'
    obtain ⟨h1, h2⟩ := h'
    have hne := bestWsSplit_some r _ k hb
    have hk : k < r.length := by
      by_contra hc
      exact hne (List.drop_eq_nil_iff.mpr (by omega))
    have hwsl : ws.length = k := by
      rw [← h1, List.length_take]
      omega
    have hBC : grp ++ (r.drop k).dropWhile (fun c => c ≠ '\n') = r.drop k := by
      rw [← h2]
      exact List.takeWhile_append_dropWhile (p := fun c => c ≠ '\n') (l := r.drop k)
    have hdropkb : r.drop (k + grp.length) = (r.drop k).dropWhile (fun c => c ≠ '\n') := by
      have h3 : r.drop (k + grp.length) = (r.drop k).drop grp.length := by
        rw [List.drop_drop, Nat.add_comm]
      rw [h3]
      conv_lhs => rw [← hBC]
      rw [List.drop_left]
    rw [hwsl, hdropkb]
    conv_lhs => rw [← List.take_append_drop k r, ← hBC]
    rw [h1]
    simp

theorem findTitleF_sound (fuel : Nat) : ∀ s pre ws grp post : List Char,
    findTitleF fuel s = some (pre, ws, grp, post) →
      s = pre ++ titleKey ++ ws ++ grp ++ post := by
  induction fuel with
  | zero =>
    intro s pre ws grp post h
    exact Option.noConfusion h
  | succ N ih =>
    intro s pre ws grp post h
    unfold findTitleF at h
    split at h
    case h_2 =>
      rcases hsl : splitLine s with _ | ⟨⟨⟨l, r⟩, hp⟩⟩
      · rw [hsl] at h
        exact Option.noConfusion h
      · rw [hsl] at h
        dsimp only at h
        rcases hft : findTitleF N r with _ | ⟨⟨pre', ws2, grp2, post2⟩⟩
        · rw [hft] at h
          exact Option.noConfusion h
        · rw [hft] at h
          dsimp only at h
          injection h with h'
          simp only [Prod.mk.injEq] at h'
          obtain ⟨h1, h2, h3, h4⟩ := h'
          subst h1 h2 h3 h4
          have hr := ih r pre' ws2 grp2 post2 hft
          rw [hp, hr]
          simp
    case h_1 ws' grp' htv =>
      injection h with h'
      simp only [Prod.mk.injEq] at h'
      obtain ⟨h1, h2, h3, h4⟩ := h'
      subst h1 h2 h3 h4
      by_cases hpref : titleKey.isPrefixOf s
      · rw [if_pos hpref] at htv
        obtain ⟨t, ht⟩ := List.isPrefixOf_iff_prefix.mp hpref
        have hdrop6 : s.drop 6 = t := by
          rw [← ht]
          exact List.drop_left titleKey t
        have hs6 : s = titleKey ++ s.drop 6 := by
          rw [hdrop6, ← ht]
        have hv := titleValMatch_sound (s.drop 6) ws' grp' htv
        conv_lhs => rw [hs6, hv]
        simp
      · rw [if_neg hpref] at htv
        exact Option.noConfusion htv

theorem findTitle_sound (s pre ws grp post : List Char)
    (h : findTitle s = some (pre, ws, grp, post)) :
    s = pre ++ titleKey ++ ws ++ grp ++ post :=
  findTitleF_sound (s.length + 1) s pre ws grp post h

/-- Splitting a text into lines at `'\n'` (used only to state the claim). -/
def linesOf : List Char → List (List Char)
  | [] => [[]]
  | c :: t =>
    if c = '\n' then [] :: linesOf t
    else
      match linesOf t with
      | [] => [[c]]
      | l :: ls => (c :: l) :: ls

theorem pyTemplateF_succ_nil (f : Nat) (m0 : List Char) :
    pyTemplateF (f + 1) m0 [] = some [] := rfl

theorem pyTemplateF_succ_cons (f : Nat) (m0 : List Char) (c : Char) (rest : List Char) :
    pyTemplateF (f + 1) m0 (c :: rest) =
      if c = '\\' then pyTemplateEscape (pyTemplateF f m0) m0 rest
      else (pyTemplateF f m0 rest).map (fun r => c :: r) := rfl

theorem pyTemplateF_id_of_no_backslash (m0 : List Char) :
    ∀ f (s : List Char), s.length ≤ f → '\\' ∉ s → pyTemplateF f m0 s = some s := by
  intro f
  induction f with
  | zero =>
    intro s hL _
    have hs : s = [] := List.length_eq_zero.mp (by omega)
    subst hs
    rfl
  | succ f ih =>
    intro s hL hnb
    rcases s with _ | ⟨c, rest⟩
    · rfl
    · rw [pyTemplateF_succ_cons]
      have hc : ¬ c = '\\' := by
        intro hcc
        apply hnb
        rw [hcc]
        exact List.mem_cons_self _ _
      rw [if_neg hc]
      rw [ih rest (by simp only [List.length_cons] at hL; omega)
        (fun hm => hnb (List.mem_cons_of_mem c hm))]
      rfl

theorem pyTemplate_id_of_no_backslash (m0 repl : List Char) (h : '\\' ∉ repl) :
    pyTemplate m0 repl = some repl :=
  pyTemplateF_id_of_no_backslash m0 repl.length repl le_rfl h

/-- The claim C9 as stated: `translate_yaml_fields` modifies at most the
first line starting with `title:` — it succeeds with the line list of the
input with only that line replaced — and a frontmatter with no title line
is returned identical. -/
def claim9Statement : Prop :=
  ∀ (tr : List Char → List Char) (yaml : List Char),
    (∀ i, (linesOf yaml).findIdx? (fun l => titleKey.isPrefixOf l) = some i →
      ∃ out newLine, translate_yaml_fields tr yaml = some out ∧
        linesOf out = (linesOf yaml).set i newLine)
    ∧ ((linesOf yaml).findIdx? (fun l => titleKey.isPrefixOf l) = none →
      translate_yaml_fields tr yaml = some yaml)

/-- **C9 (counterexample).** On the frontmatter `title:\nauthor: Bob` (a
title line with an empty value), the `\s*` of `^title:\s*(.+)$` crosses the
line break, the captured "title" is the whole `author: Bob` line, and the
substitution collapses both lines into one: the author line is destroyed,
refuting the claim that every non-title line is returned unchanged. -/
theorem claim9_counterexample : ¬ claim9Statement := by
  intro h
  obtain ⟨out, newLine, hout, hnl⟩ := (h id ("title:\nauthor: Bob".data)).1 0 (by decide)
  have hcomp : translate_yaml_fields id ("title:\nauthor: Bob".data)
      = some ("title: \"author: Bob\"".data) := by decide
  have hX := hcomp.symm.trans hout
  injection hX with hX
  subst hX
  have hlen := congrArg List.length hnl
  rw [List.length_set] at hlen
  rw [show (linesOf ("title: \"author: Bob\"".data)).length = 1 from by decide] at hlen
  rw [show (linesOf ("title:\nauthor: Bob".data)).length = 2 from by decide] at hlen
  exact absurd hlen (by decide)

/-- **C9 (amended).** `translate_yaml_fields` modifies at most the region of
the first `^title:\s*(.+)$` match: when no title matches, the frontmatter is
returned identical; when one does, the input splits as
`pre ++ "title:" ++ ws ++ value ++ post`, and whenever the transformed value
contains no backslash the output is exactly
`pre ++ "title: " ++ transformed-value ++ post`, so all text before and
after the matched region — which can extend past the title line itself when
the title's value is blank, since `\s*` crosses line breaks — is unchanged.
A backslash in the transformed value is instead processed as a replacement
template escape by `re.sub`, which can alter the inserted text or raise; a
raised template error fails the whole call. -/
theorem claim9_amended (tr : List Char → List Char) (yaml : List Char) :
    (findTitle yaml = none → translate_yaml_fields tr yaml = some yaml)
    ∧ (∀ pre ws grp post, findTitle yaml = some (pre, ws, grp, post) →
        yaml = pre ++ titleKey ++ ws ++ grp ++ post
        ∧ ('\\' ∉ titleChain tr grp →
            translate_yaml_fields tr yaml
              = some (pre ++ titleKey ++ ' ' :: titleChain tr grp ++ post))
        ∧ (pyTemplate (titleKey ++ ws ++ grp) (titleKey ++ ' ' :: titleChain tr grp)
              = none →
            translate_yaml_fields tr yaml = none)) := by
  constructor
  · intro h
    unfold translate_yaml_fields
    rw [h]
  · intro pre ws grp post h
    refine ⟨findTitle_sound yaml pre ws grp post h, ?_, ?_⟩
    · intro hnb
      have hrepl : '\\' ∉ titleKey ++ ' ' :: titleChain tr grp := by
        intro hc
        rcases List.mem_append.mp hc with h1 | h2
        · simp [titleKey] at h1
        · rcases List.mem_cons.mp h2 with h3 | h4
          · exact absurd h3 (by decide)
          · exact hnb h4
      unfold translate_yaml_fields
      rw [h]
      dsimp only
      rw [pyTemplate_id_of_no_backslash _ _ hrepl]
      simp
    · intro herr
      unfold translate_yaml_fields
      rw [h]
      dsimp only
      rw [herr]

/-- Witness for C9 (amended): on `title: Hello\nauthor: Bob` with the
identity translation oracle, the matched region is the title value `Hello`,
the decomposition holds, the transformed value has no backslash, and only
the matched region is rewritten — the author line is preserved verbatim. -/
theorem claim9_witness :
    findTitle ("title: Hello\nauthor: Bob".data)
      = some ([], [' '], "Hello".data, "\nauthor: Bob".data)
    ∧ "title: Hello\nauthor: Bob".data
      = [] ++ titleKey ++ [' '] ++ "Hello".data ++ "\nauthor: Bob".data
    ∧ '\\' ∉ titleChain id ("Hello".data)
    ∧ translate_yaml_fields id ("title: Hello\nauthor: Bob".data)
      = some ([] ++ titleKey ++ ' ' :: titleChain id ("Hello".data)
          ++ "\nauthor: Bob".data) := by
  refine ⟨by decide, ?_, by decide, ?_⟩
  · exact ((claim9_amended id ("title: Hello\nauthor: Bob".data)).2 [] [' ']
      ("Hello".data) ("\nauthor: Bob".data) (by decide)).1
  · exact ((claim9_amended id ("title: Hello\nauthor: Bob".data)).2 [] [' ']
      ("Hello".data) ("\nauthor: Bob".data) (by decide)).2.1 (by decide)

/-! ## C1 / C10: code-block extraction and restoration -/

theorem tryMatchCB_spec (s : List Char) (x) (h : tryMatchCB s = some x) :
    s = x.val.1 ++ x.val.2 ∧
      (∃ a c tk, x.val.1 = a ++ '\n' :: c ++ '\n' :: tk ∧ 3 ≤ tk.length ∧ ∀ y ∈ tk, y = '`') ∧
      ∃ d, x.val.1 = '`' :: d :=
  x.property

theorem tryMatchCB_head (s : List Char) (x) (h : tryMatchCB s = some x) :
    ∃ d, x.val.1 = '`' :: d :=
  (tryMatchCB_spec s x h).2.2

theorem tryMatchCB_m_ne_nil (s : List Char) (x) (h : tryMatchCB s = some x) :
    x.val.1 ≠ [] := by
  obtain ⟨_, ⟨a, c, tk, hm, _, _⟩, _⟩ := tryMatchCB_spec s x h
  rw [hm]
  simp

theorem tryMatchCB_rest_lt (s : List Char) (x) (h : tryMatchCB s = some x) :
    x.val.2.length < s.length := by
  obtain ⟨heq, ⟨a, c, tk, hm, _, _⟩, _⟩ := tryMatchCB_spec s x h
  have h1 := congrArg List.length heq
  simp only [List.length_append] at h1
  have h2 : 1 ≤ x.val.1.length := by
    rw [hm]
    simp only [List.length_append, List.length_cons]
    omega
  omega

theorem getLastQ_append_right (l₂ : List Char) (h : l₂ ≠ []) :
    ∀ l₁ : List Char, (l₁ ++ l₂).getLast? = l₂.getLast? := by
  intro l₁
  induction l₁ with
  | nil => rfl
  | cons c t ih =>
    have hne : t ++ l₂ ≠ [] := by
      intro hc
      rcases List.append_eq_nil.mp hc with ⟨_, h2⟩
      exact h h2
    rcases he : t ++ l₂ with _ | ⟨y, ys⟩
    · exact absurd he hne
    · rw [List.cons_append, he, List.getLast?_cons_cons, ← he, ih]

theorem tryMatchCB_getLast (s : List Char) (x) (h : tryMatchCB s = some x) :
    x.val.1.getLast? = some '`' := by
  obtain ⟨_, ⟨a, c, tk, hm, htk3, htkc⟩, _⟩ := tryMatchCB_spec s x h
  have htkne : tk ≠ [] := by
    intro hc
    rw [hc] at htk3
    simp at htk3
  rw [hm]
  rw [show a ++ '\n' :: c ++ '\n' :: tk = (a ++ '\n' :: c ++ ['\n']) ++ tk by simp]
  rw [getLastQ_append_right tk htkne]
  rcases hlast : tk.getLast? with _ | y
  · rw [List.getLast?_eq_none_iff] at hlast
    exact absurd hlast htkne
  · obtain ⟨hne2, hy⟩ := List.mem_getLast?_eq_getLast (Option.mem_def.mpr hlast)
    have hmem : y ∈ tk := hy ▸ List.getLast_mem hne2
    rw [htkc y hmem]

theorem extractAuxF_succ (fuel n : Nat) (s : List Char) :
    extractAuxF (fuel + 1) n s =
      match tryMatchCB s with
      | some x =>
        (placeholder n ++ (extractAuxF fuel (n + 1) x.val.2).1,
         x.val.1 :: (extractAuxF fuel (n + 1) x.val.2).2)
      | none =>
        match s with
        | [] => ([], [])
        | c :: t => (c :: (extractAuxF fuel n t).1, (extractAuxF fuel n t).2) := rfl

theorem extractAuxF_succ_match (fuel n : Nat) (s : List Char) (x)
    (h : tryMatchCB s = some x) :
    extractAuxF (fuel + 1) n s =
      (placeholder n ++ (extractAuxF fuel (n + 1) x.val.2).1,
       x.val.1 :: (extractAuxF fuel (n + 1) x.val.2).2) := by
  rw [extractAuxF_succ, h]

theorem extractAuxF_succ_cons (fuel n : Nat) (c : Char) (t : List Char)
    (h : tryMatchCB (c :: t) = none) :
    extractAuxF (fuel + 1) n (c :: t) =
      (c :: (extractAuxF fuel n t).1, (extractAuxF fuel n t).2) := by
  rw [extractAuxF_succ, h]

theorem extractAuxF_fuel : ∀ f1 f2 n (s : List Char), s.length ≤ f1 → s.length ≤ f2 →
    extractAuxF f1 n s = extractAuxF f2 n s := by
  intro f1
  induction f1 with
  | zero =>
    intro f2 n s h1 h2
    have : s = [] := List.length_eq_zero.mp (by omega)
    subst this
    cases f2 with
    | zero => rfl
    | succ f2 => rfl
  | succ f1 ih =>
    intro f2 n s h1 h2
    cases s with
    | nil =>
      cases f2 with
      | zero => rfl
      | succ f2 => rfl
    | cons c t =>
      cases f2 with
      | zero => simp at h2
      | succ f2 =>
        rcases htm : tryMatchCB (c :: t) with _ | x
        · rw [extractAuxF_succ_cons f1 n c t htm, extractAuxF_succ_cons f2 n c t htm]
          have ht1 : t.length ≤ f1 := by simp at h1; omega
          have ht2 : t.length ≤ f2 := by simp at h2; omega
          rw [ih f2 n t ht1 ht2]
        · rw [extractAuxF_succ_match f1 n (c :: t) x htm,
            extractAuxF_succ_match f2 n (c :: t) x htm]
          have hlt := tryMatchCB_rest_lt (c :: t) x htm
          simp only [List.length_cons] at h1 h2 hlt
          have hr1 : x.val.2.length ≤ f1 := by omega
          have hr2 : x.val.2.length ≤ f2 := by omega
          rw [ih f2 (n + 1) x.val.2 hr1 hr2]

theorem extractAux_step_match (n : Nat) (s : List Char) (x) (h : tryMatchCB s = some x) :
    extractAux n s =
      (placeholder n ++ (extractAux (n + 1) x.val.2).1,
       x.val.1 :: (extractAux (n + 1) x.val.2).2) := by
  have hlt := tryMatchCB_rest_lt s x h
  unfold extractAux
  have hslen : s.length = (s.length - 1) + 1 := by omega
  rw [hslen, extractAuxF_succ_match (s.length - 1) n s x h,
    extractAuxF_fuel (s.length - 1) x.val.2.length (n + 1) x.val.2 (by omega) le_rfl]

theorem extractAux_nil (n : Nat) : extractAux n [] = ([], []) := rfl

theorem extractAux_step_cons (n : Nat) (c : Char) (t : List Char)
    (h : tryMatchCB (c :: t) = none) :
    extractAux n (c :: t) = (c :: (extractAux n t).1, (extractAux n t).2) := by
  unfold extractAux
  rw [show (c :: t).length = t.length + 1 from rfl, extractAuxF_succ_cons t.length n c t h]

theorem replaceAllF_succ_nil (fuel : Nat) (pat rep : List Char) :
    replaceAllF (fuel + 1) [] pat rep = [] := rfl

theorem replaceAllF_succ_cons (fuel : Nat) (c : Char) (t pat rep : List Char) :
    replaceAllF (fuel + 1) (c :: t) pat rep =
      if pat ≠ [] ∧ pat.isPrefixOf (c :: t) then
        rep ++ replaceAllF fuel ((c :: t).drop pat.length) pat rep
      else
        c :: replaceAllF fuel t pat rep := rfl

theorem replaceAllF_fuel : ∀ f1 f2 (s pat rep : List Char), s.length ≤ f1 → s.length ≤ f2 →
    replaceAllF f1 s pat rep = replaceAllF f2 s pat rep := by
  intro f1
  induction f1 with
  | zero =>
    intro f2 s pat rep h1 h2
    have : s = [] := List.length_eq_zero.mp (by omega)
    subst this
    cases f2 with
    | zero => rfl
    | succ f2 => rfl
  | succ f1 ih =>
    intro f2 s pat rep h1 h2
    cases s with
    | nil =>
      cases f2 with
      | zero => rfl
      | succ f2 => rfl
    | cons c t =>
      cases f2 with
      | zero => simp at h2
      | succ f2 =>
        rw [replaceAllF_succ_cons f1 c t pat rep, replaceAllF_succ_cons f2 c t pat rep]
        by_cases hc : pat ≠ [] ∧ pat.isPrefixOf (c :: t)
        · rw [if_pos hc, if_pos hc]
          have hp : 1 ≤ pat.length := by
            cases pat with
            | nil => exact absurd rfl hc.1
            | cons p ps => simp
          have hd1 : ((c :: t).drop pat.length).length ≤ f1 := by
            simp only [List.length_drop, List.length_cons] at h1 ⊢
            omega
          have hd2 : ((c :: t).drop pat.length).length ≤ f2 := by
            simp only [List.length_drop, List.length_cons] at h2 ⊢
            omega
          rw [ih f2 _ pat rep hd1 hd2]
        · rw [if_neg hc, if_neg hc]
          have ht1 : t.length ≤ f1 := by simp at h1; omega
          have ht2 : t.length ≤ f2 := by simp at h2; omega
          rw [ih f2 t pat rep ht1 ht2]

theorem replaceAll_nil (pat rep : List Char) : replaceAll [] pat rep = [] := rfl

theorem replaceAll_cons_pos (c : Char) (t pat rep : List Char)
    (h : pat ≠ [] ∧ pat.isPrefixOf (c :: t)) :
    replaceAll (c :: t) pat rep = rep ++ replaceAll ((c :: t).drop pat.length) pat rep := by
  unfold replaceAll
  rw [show (c :: t).length = t.length + 1 from rfl, replaceAllF_succ_cons, if_pos h]
  have hp : 1 ≤ pat.length := by
    cases pat with
    | nil => exact absurd rfl h.1
    | cons p ps => simp
  rw [replaceAllF_fuel t.length ((c :: t).drop pat.length).length _ pat rep
    (by simp only [List.length_drop, List.length_cons]; omega) le_rfl]

theorem replaceAll_cons_neg (c : Char) (t pat rep : List Char)
    (h : ¬(pat ≠ [] ∧ pat.isPrefixOf (c :: t))) :
    replaceAll (c :: t) pat rep = c :: replaceAll t pat rep := by
  unfold replaceAll
  rw [show (c :: t).length = t.length + 1 from rfl, replaceAllF_succ_cons, if_neg h]

theorem digitChar_toNat (d : Nat) (h : d < 10) : (digitChar d).toNat = 48 + d := by
  interval_cases d <;> decide

theorem natDigitsAux_mem (f : Nat) : ∀ n c, c ∈ natDigitsAux f n →
    48 ≤ c.toNat ∧ c.toNat ≤ 57 := by
  induction f with
  | zero => intro n c hc; simp [natDigitsAux] at hc
  | succ f ih =>
    intro n c hc
    unfold natDigitsAux at hc
    by_cases hn : n < 10
    · rw [if_pos hn] at hc
      simp at hc
      subst hc
      rw [digitChar_toNat n hn]
      omega
    · rw [if_neg hn] at hc
      rcases List.mem_append.mp hc with h1 | h2
      · exact ih (n / 10) c h1
      · simp at h2
        subst h2
        rw [digitChar_toNat (n % 10) (Nat.mod_lt n (by omega))]
        have := Nat.mod_lt n (show 0 < 10 by omega)
        omega

theorem natDigits_mem (n : Nat) (c : Char) (hc : c ∈ natDigits n) :
    48 ≤ c.toNat ∧ c.toNat ≤ 57 :=
  natDigitsAux_mem (n + 1) n c hc

/-- The numeric value of a digit string, used to show `natDigits` is injective. -/
def digitsVal (l : List Char) : Nat :=
  l.foldl (fun a c => 10 * a + (c.toNat - 48)) 0

theorem digitsVal_append_singleton (l : List Char) (c : Char) :
    digitsVal (l ++ [c]) = 10 * digitsVal l + (c.toNat - 48) := by
  unfold digitsVal
  rw [List.foldl_append]
  rfl

theorem digitsVal_natDigitsAux (f : Nat) : ∀ n, n < 10 ^ f →
    digitsVal (natDigitsAux f n) = n := by
  induction f with
  | zero =>
    intro n hn
    simp only [pow_zero, Nat.lt_one_iff] at hn
    subst hn
    rfl
  | succ f ih =>
    intro n hn
    unfold natDigitsAux
    by_cases h10 : n < 10
    · rw [if_pos h10]
      show 10 * 0 + ((digitChar n).toNat - 48) = n
      rw [digitChar_toNat n h10]
      omega
    · rw [if_neg h10]
      rw [digitsVal_append_singleton]
      have hdiv : n / 10 < 10 ^ f := by
        rw [pow_succ] at hn
        omega
      rw [ih (n / 10) hdiv, digitChar_toNat (n % 10) (Nat.mod_lt n (by omega))]
      omega

theorem digitsVal_natDigits (n : Nat) : digitsVal (natDigits n) = n := by
  unfold natDigits
  exact digitsVal_natDigitsAux (n + 1) n
    (lt_of_le_of_lt (Nat.le_succ n) (Nat.lt_pow_self (show (1 : Nat) < 10 by omega) (n + 1)))

theorem natDigits_injective (a b : Nat) (h : natDigits a = natDigits b) : a = b := by
  have := congrArg digitsVal h
  rwa [digitsVal_natDigits, digitsVal_natDigits] at this

theorem natDigits_ne_nil (n : Nat) : natDigits n ≠ [] := by
  unfold natDigits natDigitsAux
  by_cases h10 : n < 10
  · rw [if_pos h10]; simp
  · rw [if_neg h10]; simp

/-- `content` contains no placeholder token (the side condition of the
extract-then-restore round trip). -/
def NoPh (s : List Char) : Prop := ∀ i, ¬ Occurs (placeholder i) s

theorem occurs_nil (p : List Char) (h : Occurs p []) : p = [] := by
  obtain ⟨a, b, hab⟩ := h
  rcases List.append_eq_nil.mp hab.symm with ⟨h1, h2⟩
  exact (List.append_eq_nil.mp h1).2

theorem occurs_cons (p : List Char) (c : Char) (t : List Char) :
    Occurs p (c :: t) ↔ p <+: (c :: t) ∨ Occurs p t := by
  constructor
  · rintro ⟨a, b, hab⟩
    cases a with
    | nil =>
      left
      exact ⟨b, by simpa using hab.symm⟩
    | cons a₀ a' =>
      right
      refine ⟨a', b, ?_⟩
      simpa using congrArg (List.drop 1) hab
  · rintro (⟨b, hb⟩ | ⟨a, b, hab⟩)
    · exact ⟨[], b, by simp [hb]⟩
    · exact ⟨c :: a, b, by simp [hab]⟩

theorem occurs_iff_occursB (p : List Char) : ∀ s, Occurs p s ↔ occursB p s = true := by
  intro s
  induction s with
  | nil =>
    unfold occursB
    constructor
    · intro h
      rw [occurs_nil p h]
      rfl
    · intro h
      refine ⟨[], [], ?_⟩
      simp [List.isEmpty_iff] at h
      simp [h]
  | cons c t ih =>
    unfold occursB
    rw [Bool.or_eq_true, List.isPrefixOf_iff_prefix, occurs_cons, ih]

theorem occursOfPrefix (p s : List Char) (h : p <+: s) : Occurs p s := by
  obtain ⟨b, hb⟩ := h
  exact ⟨[], b, by simp [hb]⟩

theorem occurs_of_suffix (p s : List Char) (h : p <:+ s) : Occurs p s := by
  obtain ⟨a, ha⟩ := h
  exact ⟨a, [], by simp [ha]⟩

theorem occurs_append_left (p A B : List Char) (h : Occurs p A) : Occurs p (A ++ B) := by
  obtain ⟨a, b, hab⟩ := h
  exact ⟨a, b ++ B, by simp [hab]⟩

theorem occurs_append_right (p A B : List Char) (h : Occurs p B) : Occurs p (A ++ B) := by
  obtain ⟨a, b, hab⟩ := h
  exact ⟨A ++ a, b, by simp [hab]⟩

theorem occurs_length (p s : List Char) (h : Occurs p s) : p.length ≤ s.length := by
  obtain ⟨a, b, hab⟩ := h
  have := congrArg List.length hab
  simp only [List.length_append] at this
  omega

theorem occurs_trans (q p s : List Char) (hqp : Occurs q p) (hps : Occurs p s) :
    Occurs q s := by
  obtain ⟨a, b, hab⟩ := hqp
  obtain ⟨u, v, huv⟩ := hps
  exact ⟨u ++ a, b ++ v, by simp [huv, hab]⟩

theorem prefix_append_cases (p A B : List Char) (h : p <+: A ++ B) :
    p <+: A ∨ ∃ v, p = A ++ v ∧ v <+: B := by
  obtain ⟨t, ht⟩ := h
  rcases List.append_eq_append_iff.mp ht with ⟨e, hA, _⟩ | ⟨e, hp, hB⟩
  · exact Or.inl ⟨e, hA.symm⟩
  · exact Or.inr ⟨e, hp, ⟨t, hB.symm⟩⟩

theorem suffix_append_cases (u A B : List Char) (h : u <:+ A ++ B) :
    u <:+ B ∨ ∃ w, u = w ++ B ∧ w <:+ A := by
  obtain ⟨w₀, hw⟩ := h
  rcases List.append_eq_append_iff.mp hw with ⟨e, hA, hu⟩ | ⟨e, hw₀, hB⟩
  · exact Or.inr ⟨e, hu, ⟨w₀, hA.symm⟩⟩
  · exact Or.inl ⟨e, hB.symm⟩

theorem occurs_split (p A B : List Char) (h : Occurs p (A ++ B)) :
    Occurs p A ∨ Occurs p B ∨
      ∃ u v, p = u ++ v ∧ u ≠ [] ∧ v ≠ [] ∧ u <:+ A ∧ v <+: B := by
  obtain ⟨a, b, hab⟩ := h
  rw [List.append_assoc] at hab
  rcases List.append_eq_append_iff.mp hab with ⟨e, ha, hB⟩ | ⟨e, hA, hpb⟩
  · right; left
    exact ⟨e, b, by rw [hB, List.append_assoc]⟩
  · rcases List.append_eq_append_iff.mp hpb.symm with ⟨f, hp, hBf⟩ | ⟨f, he, hbf⟩
    · by_cases he0 : e = []
      · subst he0
        right; left
        simp only [List.nil_append] at hp
        exact ⟨[], b, by simp [hp, hBf]⟩
      · by_cases hf0 : f = []
        · subst hf0
          left
          simp only [List.append_nil] at hp
          exact ⟨a, [], by simp [hA, hp]⟩
        · right; right
          exact ⟨e, f, hp, he0, hf0, ⟨a, hA.symm⟩, ⟨b, hBf.symm⟩⟩
    · left
      exact ⟨a, f, by rw [hA, he, List.append_assoc]⟩

/-- The eleven fixed characters of the placeholder between `"<<<"` and the
block number. -/
def phMid : List Char := ['C', 'O', 'D', 'E', '_', 'B', 'L', 'O', 'C', 'K', '_']

/-- Everything of a placeholder after its three opening `<` characters. -/
def midPH (i : Nat) : List Char := phMid ++ natDigits i ++ phTail

theorem placeholder_eq (i : Nat) :
    placeholder i = '<' :: '<' :: '<' :: midPH i := by
  show phHead ++ natDigits i ++ phTail = _
  unfold phHead midPH phMid
  simp

theorem midPH_head (i : Nat) :
    midPH i = 'C' :: (['O', 'D', 'E', '_', 'B', 'L', 'O', 'C', 'K', '_'] ++
      natDigits i ++ phTail) := by
  unfold midPH phMid
  simp

theorem lt_not_mem_midPH (i : Nat) : '<' ∉ midPH i := by
  intro h
  unfold midPH at h
  rcases List.mem_append.mp h with h1 | h2
  · rcases List.mem_append.mp h1 with h3 | h4
    · simp [phMid] at h3
    · have := natDigits_mem i '<' h4
      simp at this
  · simp [phTail] at h2

theorem gt_not_mem_NG (i : Nat) : '>' ∉ phHead ++ natDigits i := by
  intro h
  rcases List.mem_append.mp h with h1 | h2
  · simp [phHead] at h1
  · have := natDigits_mem i '>' h2
    simp at this

theorem gt_not_mem_phMid_digits (i : Nat) : '>' ∉ phMid ++ natDigits i := by
  intro h
  rcases List.mem_append.mp h with h1 | h2
  · simp [phMid] at h1
  · have := natDigits_mem i '>' h2
    simp at this

theorem bq_not_mem_placeholder (i : Nat) : '`' ∉ placeholder i := by
  intro h
  unfold placeholder at h
  rcases List.mem_append.mp h with h1 | h2
  · rcases List.mem_append.mp h1 with h3 | h4
    · simp [phHead] at h3
    · have := natDigits_mem i '`' h4
      simp at this
  · simp [phTail] at h2

theorem placeholder_length (i : Nat) : 18 ≤ (placeholder i).length := by
  unfold placeholder
  simp only [List.length_append]
  have h1 : 1 ≤ (natDigits i).length := by
    rcases hE : natDigits i with _ | ⟨c, t⟩
    · exact absurd hE (natDigits_ne_nil i)
    · simp
  have h2 : phHead.length = 14 := by decide
  have h3 : phTail.length = 3 := by decide
  omega

theorem placeholder_ne_nil (i : Nat) : placeholder i ≠ [] := by
  intro h
  have := placeholder_length i
  rw [h] at this
  simp at this

theorem append_cancel_l (A X Y : List Char) (h : A ++ X = A ++ Y) : X = Y :=
  List.append_cancel_left h

theorem triple_lt_position (n : Nat) (a b : List Char)
    (h : placeholder n = a ++ '<' :: '<' :: '<' :: b) : a = [] ∧ b = midPH n := by
  rw [placeholder_eq] at h
  rcases a with _ | ⟨a₀, a⟩
  · simp only [List.nil_append] at h
    injection h with _ h
    injection h with _ h
    injection h with _ h
    exact ⟨rfl, h.symm⟩
  · simp only [List.cons_append] at h
    injection h with _ h
    rcases a with _ | ⟨a₁, a⟩
    · simp only [List.nil_append] at h
      injection h with _ h
      injection h with _ h
      exfalso
      apply lt_not_mem_midPH n
      rw [h]
      exact List.mem_cons_self _ _
    · simp only [List.cons_append] at h
      injection h with _ h
      rcases a with _ | ⟨a₂, a⟩
      · simp only [List.nil_append] at h
        injection h with _ h
        exfalso
        apply lt_not_mem_midPH n
        rw [h]
        exact List.mem_cons_self _ _
      · simp only [List.cons_append] at h
        injection h with _ h
        exfalso
        apply lt_not_mem_midPH n
        rw [h]
        exact List.mem_append_right a (List.mem_cons_self _ _)

theorem gt_cancel : ∀ (xs ys t1 t2 : List Char), '>' ∉ xs → '>' ∉ ys →
    xs ++ '>' :: t1 = ys ++ '>' :: t2 → xs = ys ∧ t1 = t2 := by
  intro xs
  induction xs with
  | nil =>
    intro ys t1 t2 _ hys h
    cases ys with
    | nil =>
      simp only [List.nil_append] at h
      injection h with _ h
      exact ⟨rfl, h⟩
    | cons y ys' =>
      simp only [List.nil_append, List.cons_append] at h
      injection h with hy _
      exact absurd (hy ▸ List.mem_cons_self y ys') hys
  | cons x xs' ih =>
    intro ys t1 t2 hxs hys h
    cases ys with
    | nil =>
      simp only [List.cons_append, List.nil_append] at h
      injection h with hx _
      exact absurd (hx ▸ List.mem_cons_self x xs') hxs
    | cons y ys' =>
      simp only [List.cons_append] at h
      injection h with hxy h
      have hxs' : '>' ∉ xs' := fun hc => hxs (List.mem_cons_of_mem x hc)
      have hys' : '>' ∉ ys' := fun hc => hys (List.mem_cons_of_mem y hc)
      obtain ⟨h1, h2⟩ := ih ys' t1 t2 hxs' hys' h
      exact ⟨by rw [hxy, h1], h2⟩

theorem placeholder_occurs_eq (j n : Nat) (h : Occurs (placeholder j) (placeholder n)) :
    j = n := by
  obtain ⟨a, b, hab⟩ := h
  rw [placeholder_eq j] at hab
  have hab2 : placeholder n = a ++ '<' :: '<' :: '<' :: (midPH j ++ b) := by
    rw [hab]
    simp
  obtain ⟨ha, hb⟩ := triple_lt_position n a (midPH j ++ b) hab2
  unfold midPH phTail at hb
  obtain ⟨h1, _⟩ := gt_cancel (phMid ++ natDigits j) (phMid ++ natDigits n)
    ('>' :: '>' :: b) ('>' :: '>' :: [])
    (gt_not_mem_phMid_digits j) (gt_not_mem_phMid_digits n)
    (by
      simp only [List.append_assoc, List.cons_append, List.nil_append] at hb ⊢
      exact hb)
  have hdig : natDigits j = natDigits n := append_cancel_l phMid _ _ h1
  exact natDigits_injective j n hdig

theorem lt_position_in_placeholder (i : Nat) (u r : List Char)
    (h : placeholder i = u ++ '<' :: r) :
    u = [] ∨ u = ['<'] ∨ u = ['<', '<'] := by
  rw [placeholder_eq] at h
  rcases u with _ | ⟨u₀, u⟩
  · exact Or.inl rfl
  · simp only [List.cons_append] at h
    injection h with h₀ h
    rcases u with _ | ⟨u₁, u⟩
    · simp only [List.nil_append] at h
      exact Or.inr (Or.inl (by rw [← h₀]))
    · simp only [List.cons_append] at h
      injection h with h₁ h
      rcases u with _ | ⟨u₂, u⟩
      · exact Or.inr (Or.inr (by rw [← h₀, ← h₁]))
      · simp only [List.cons_append] at h
        injection h with h₂ h
        exfalso
        apply lt_not_mem_midPH i
        rw [h]
        exact List.mem_append_right u (List.mem_cons_self _ _)

theorem placeholder_getLast (i : Nat) : (placeholder i).getLast? = some '>' := by
  show ((phHead ++ natDigits i) ++ phTail).getLast? = _
  rw [getLastQ_append_right phTail (by decide)]
  rfl

theorem mem_of_getLastQ (l : List Char) (c : Char) (h : l.getLast? = some c) : c ∈ l := by
  obtain ⟨hne, hc⟩ := List.mem_getLast?_eq_getLast (Option.mem_def.mpr h)
  exact hc ▸ List.getLast_mem hne

theorem placeholder_no_border (n j : Nat) (u v : List Char)
    (hp : placeholder j = u ++ v) (hu : u ≠ []) (hv : v ≠ [])
    (hsuf : u <:+ placeholder n) : False := by
  obtain ⟨w, hw⟩ := hsuf
  have hlast : u.getLast? = some '>' := by
    have h1 : (w ++ u).getLast? = some '>' := by rw [hw]; exact placeholder_getLast n
    rwa [getLastQ_append_right u hu w] at h1
  have hgt : '>' ∈ u := mem_of_getLastQ u '>' hlast
  have hupre : u ++ v = (phHead ++ natDigits j) ++ phTail := by
    rw [← hp]; rfl
  rcases prefix_append_cases u (phHead ++ natDigits j) phTail ⟨v, hupre⟩ with
    hc | ⟨t, hut, htpre⟩
  · exact gt_not_mem_NG j (hc.subset hgt)
  · have hgtt : '>' ∈ t := by
      rcases List.mem_append.mp (hut ▸ hgt) with h1 | h2
      · exact absurd h1 (gt_not_mem_NG j)
      · exact h2
    rcases t with _ | ⟨t₀, t'⟩
    · simp at hgtt
    · have ht₀ : t₀ = '>' := by
        obtain ⟨r, hr⟩ := htpre
        unfold phTail at hr
        simp only [List.cons_append] at hr
        injection hr with h1 _
      subst ht₀
      have hab2 : placeholder n =
          w ++ '<' :: '<' :: '<' :: ((phMid ++ natDigits j) ++ '>' :: t') := by
        rw [← hw, hut, show phHead = '<' :: '<' :: '<' :: phMid from rfl]
        simp only [List.cons_append, List.append_assoc]
      obtain ⟨hw0, hmid⟩ := triple_lt_position n w _ hab2
      unfold midPH phTail at hmid
      obtain ⟨hng, ht'⟩ := gt_cancel (phMid ++ natDigits j) (phMid ++ natDigits n)
        t' ['>', '>']
        (gt_not_mem_phMid_digits j) (gt_not_mem_phMid_digits n)
        (by
          simp only [List.append_assoc, List.cons_append, List.nil_append] at hmid ⊢
          exact hmid)
      subst ht'
      have hu_ph : u = placeholder j := by rw [hut]; rfl
      have hlen := congrArg List.length hp
      rw [hu_ph, List.length_append] at hlen
      have hv0 : v.length = 0 := by omega
      exact hv (List.length_eq_zero.mp hv0)

theorem placeholder_no_border_mirror (n i : Nat) (u v : List Char)
    (hp : placeholder i = u ++ v) (hu : u ≠ []) (hv : v ≠ [])
    (hpre : v <+: placeholder n) : False := by
  obtain ⟨t, ht⟩ := hpre
  rcases v with _ | ⟨v₀, v''⟩
  · exact hv rfl
  · have h0 : v₀ = '<' := by
      rw [placeholder_eq n] at ht
      simp only [List.cons_append] at ht
      injection ht with h0 _
    subst h0
    rcases lt_position_in_placeholder i u v'' hp with h | h | h
    · exact hu h
    · subst h
      rw [placeholder_eq i] at hp
      simp only [List.cons_append, List.nil_append] at hp
      injection hp with _ hp
      injection hp with _ hp
      rw [placeholder_eq n] at ht
      simp only [List.cons_append] at ht
      injection ht with _ ht
      rw [← hp] at ht
      simp only [List.cons_append] at ht
      injection ht with _ ht
      rw [midPH_head i] at ht
      simp only [List.cons_append] at ht
      injection ht with hC _
      exact absurd hC (by decide)
    · subst h
      rw [placeholder_eq i] at hp
      simp only [List.cons_append, List.nil_append] at hp
      injection hp with _ hp
      injection hp with _ hp
      injection hp with _ hp
      rw [placeholder_eq n] at ht
      simp only [List.cons_append] at ht
      injection ht with _ ht
      rw [← hp] at ht
      rw [midPH_head i] at ht
      simp only [List.cons_append] at ht
      injection ht with hC _
      exact absurd hC (by decide)

theorem replaceAll_of_not_occurs (s pat rep : List Char) (h : ¬ Occurs pat s) :
    replaceAll s pat rep = s := by
  induction s with
  | nil => exact replaceAll_nil pat rep
  | cons c t ih =>
    have hnp : ¬ pat.isPrefixOf (c :: t) := fun hc =>
      h (occursOfPrefix _ _ (List.isPrefixOf_iff_prefix.mp hc))
    rw [replaceAll_cons_neg c t pat rep (fun hc => hnp hc.2)]
    rw [ih (fun hc => h ((occurs_cons pat c t).mpr (Or.inr hc)))]

theorem replaceAll_head (t pat rep : List Char) (hne : pat ≠ []) :
    replaceAll (pat ++ t) pat rep = rep ++ replaceAll t pat rep := by
  rcases hP : pat with _ | ⟨p₀, p'⟩
  · exact absurd hP hne
  · have hpre : (p₀ :: p').isPrefixOf (p₀ :: (p' ++ t)) := by
      rw [List.isPrefixOf_iff_prefix]
      exact ⟨t, by simp⟩
    rw [show (p₀ :: p') ++ t = p₀ :: (p' ++ t) by simp,
      replaceAll_cons_pos p₀ (p' ++ t) (p₀ :: p') rep ⟨by simp, hpre⟩]
    congr 1
    rw [show p₀ :: (p' ++ t) = (p₀ :: p') ++ t by simp, List.drop_left]

theorem replaceAll_append_front (pat rep : List Char) :
    ∀ m t, ¬ Occurs pat m →
    (∀ u v, pat = u ++ v → u ≠ [] → v ≠ [] → u <:+ m → ¬ v <+: t) →
    replaceAll (m ++ t) pat rep = m ++ replaceAll t pat rep := by
  intro m
  induction m with
  | nil =>
    intro t _ _
    simp
  | cons c m' ih =>
    intro t hocc hspan
    have hnp : ¬ pat.isPrefixOf (c :: (m' ++ t)) := by
      intro hc
      have hc2 : pat <+: (c :: m') ++ t := by
        rw [List.isPrefixOf_iff_prefix] at hc
        simpa using hc
      rcases prefix_append_cases pat (c :: m') t hc2 with h1 | ⟨v, hpv, hvt⟩
      · exact hocc (occursOfPrefix _ _ h1)
      · rcases v with _ | ⟨v₀, v'⟩
        · simp only [List.append_nil] at hpv
          exact hocc ⟨[], [], by simp [hpv]⟩
        · exact hspan (c :: m') (v₀ :: v') hpv (by simp) (by simp)
            List.suffix_rfl hvt
    rw [show (c :: m') ++ t = c :: (m' ++ t) by simp]
    rw [replaceAll_cons_neg c (m' ++ t) pat rep (fun hc => hnp hc.2)]
    rw [ih t (fun hc => hocc ((occurs_cons pat c m').mpr (Or.inr hc)))
      (fun u v hp hu hv hsuf => hspan u v hp hu hv (hsuf.trans (List.suffix_cons c m')))]
    simp

theorem noPh_cons (c : Char) (t : List Char) (h : NoPh (c :: t)) : NoPh t :=
  fun i hc => h i ((occurs_cons _ c t).mpr (Or.inr hc))

theorem noPh_of_append_right (A B : List Char) (h : NoPh (A ++ B)) : NoPh B :=
  fun i hc => h i (occurs_append_right _ A B hc)

theorem noPh_of_append_left (A B : List Char) (h : NoPh (A ++ B)) : NoPh A :=
  fun i hc => h i (occurs_append_left _ A B hc)

theorem extract_prefix_analysis : ∀ L, ∀ n (s : List Char) i (u v : List Char),
    s.length ≤ L → NoPh s →
    placeholder i = u ++ v → v ≠ [] → v <+: (extractAux n s).1 →
    v <+: s ∨ (u = [] ∧ i = n) := by
  intro L
  induction L with
  | zero =>
    intro n s i u v hL _ _ hv hpre
    have hs : s = [] := List.length_eq_zero.mp (by omega)
    subst hs
    rw [extractAux_nil] at hpre
    exact absurd (List.prefix_nil.mp hpre) hv
  | succ L ih =>
    intro n s i u v hL hnoph hp hv hpre
    rcases s with _ | ⟨c, t⟩
    · rw [extractAux_nil] at hpre
      exact absurd (List.prefix_nil.mp hpre) hv
    · rcases htm : tryMatchCB (c :: t) with _ | x
      · rw [extractAux_step_cons n c t htm] at hpre
        dsimp only at hpre
        rcases v with _ | ⟨v₀, v'⟩
        · exact absurd rfl hv
        · obtain ⟨r, hr⟩ := hpre
          simp only [List.cons_append, List.cons.injEq] at hr
          obtain ⟨hv₀, hr⟩ := hr
          by_cases hV : v' = []
          · subst hV
            left
            exact ⟨t, by simp [hv₀]⟩
          · have hsplit : placeholder i = (u ++ [v₀]) ++ v' := by
              rw [hp]
              simp
            have hlen : t.length ≤ L := by
              simp only [List.length_cons] at hL
              omega
            rcases ih n t i (u ++ [v₀]) v' hlen (noPh_cons c t hnoph) hsplit
              hV ⟨r, hr⟩ with h1 | ⟨h2, _⟩
            · left
              obtain ⟨r₂, hr₂⟩ := h1
              exact ⟨r₂, by simp [hv₀, hr₂]⟩
            · exact absurd h2 (by simp)
      · rw [extractAux_step_match n (c :: t) x htm] at hpre
        dsimp only at hpre
        rcases prefix_append_cases v (placeholder n) _ hpre with h1 | ⟨v₂, hv₂, hv₂pre⟩
        · by_cases hu : u = []
          · subst hu
            simp only [List.nil_append] at hp
            right
            exact ⟨rfl, placeholder_occurs_eq i n (occursOfPrefix _ _ (hp ▸ h1))⟩
          · exact (placeholder_no_border_mirror n i u v hp hu hv h1).elim
        · have hab2 : placeholder i = u ++ '<' :: '<' :: '<' :: (midPH n ++ v₂) := by
            rw [hp, hv₂, placeholder_eq n]
            simp
          obtain ⟨hu0, hmid⟩ := triple_lt_position i u _ hab2
          unfold midPH phTail at hmid
          obtain ⟨hng, hv₂2⟩ := gt_cancel (phMid ++ natDigits n) (phMid ++ natDigits i)
            ('>' :: '>' :: v₂) ('>' :: '>' :: [])
            (gt_not_mem_phMid_digits n) (gt_not_mem_phMid_digits i)
            (by
              simp only [List.append_assoc, List.cons_append, List.nil_append] at hmid ⊢
              exact hmid)
          injection hv₂2 with _ hv₂2
          injection hv₂2 with _ hv₂2
          right
          refine ⟨hu0, ?_⟩
          have hdig : natDigits n = natDigits i := append_cancel_l phMid _ _ hng
          exact (natDigits_injective n i hdig).symm

theorem extract_no_stale_placeholder : ∀ L, ∀ n (s : List Char) j,
    s.length ≤ L → NoPh s → j < n →
    ¬ Occurs (placeholder j) (extractAux n s).1 := by
  intro L
  induction L with
  | zero =>
    intro n s j hL _ _ hocc
    have hs : s = [] := List.length_eq_zero.mp (by omega)
    subst hs
    rw [extractAux_nil] at hocc
    exact placeholder_ne_nil j (occurs_nil _ hocc)
  | succ L ih =>
    intro n s j hL hnoph hj hocc
    rcases s with _ | ⟨c, t⟩
    · rw [extractAux_nil] at hocc
      exact placeholder_ne_nil j (occurs_nil _ hocc)
    · rcases htm : tryMatchCB (c :: t) with _ | x
      · rw [extractAux_step_cons n c t htm] at hocc
        dsimp only at hocc
        have hlen : t.length ≤ L := by
          simp only [List.length_cons] at hL
          omega
        rcases (occurs_cons _ c _).mp hocc with h1 | h2
        · obtain ⟨r, hr⟩ := h1
          rcases hphj : placeholder j with _ | ⟨p₀, pw⟩
          · exact placeholder_ne_nil j hphj
          · rw [hphj] at hr
            simp only [List.cons_append, List.cons.injEq] at hr
            obtain ⟨hp₀, hr⟩ := hr
            by_cases hpw : pw = []
            · subst hpw
              have := placeholder_length j
              rw [hphj] at this
              simp at this
            · rcases extract_prefix_analysis L n t j [p₀] pw hlen (noPh_cons c t hnoph)
                (by rw [hphj]; simp) hpw ⟨r, hr⟩ with h3 | ⟨h4, _⟩
              · obtain ⟨r₂, hr₂⟩ := h3
                exact hnoph j ⟨[], r₂, by simp [hphj, hp₀, hr₂]⟩
              · exact absurd h4 (by simp)
        · exact ih n t j hlen (noPh_cons c t hnoph) hj h2
      · rw [extractAux_step_match n (c :: t) x htm] at hocc
        dsimp only at hocc
        obtain ⟨heq, _, _⟩ := tryMatchCB_spec _ x htm
        have hltn : x.val.2.length ≤ L := by
          have := tryMatchCB_rest_lt _ x htm
          simp only [List.length_cons] at hL this
          omega
        have hnoph₂ : NoPh x.val.2 := noPh_of_append_right _ _ (heq ▸ hnoph)
        rcases occurs_split _ _ _ hocc with h1 | h2 | ⟨u, v, hpuv, hu, hv, hus, hvp⟩
        · have := placeholder_occurs_eq j n h1
          omega
        · exact ih (n + 1) x.val.2 j hltn hnoph₂ (by omega) h2
        · exact placeholder_no_border n j u v hpuv hu hv hus

theorem restoreAux_cons (i : Nat) (content b : List Char) (bs : List (List Char)) :
    restoreAux i content (b :: bs) =
      restoreAux (i + 1) (replaceAll content (placeholder i) b) bs := rfl

theorem restore_extract_front : ∀ L (s : List Char), s.length ≤ L → ∀ n (pre : List Char),
    NoPh s →
    (∀ i, ¬ Occurs (placeholder i) pre) →
    (∀ i u v, placeholder i = u ++ v → u ≠ [] → v ≠ [] → u <:+ pre →
      ¬ v <+: (extractAux n s).1) →
    restoreAux n (pre ++ (extractAux n s).1) (extractAux n s).2 = pre ++ s := by
  intro L
  induction L with
  | zero =>
    intro s hL n pre _ _ _
    have hs : s = [] := List.length_eq_zero.mp (by omega)
    subst hs
    rw [extractAux_nil]
    rfl
  | succ L ih =>
    intro s hL n pre hnoph hclean hspan
    rcases s with _ | ⟨c, t⟩
    · rw [extractAux_nil]
      rfl
    · have hlen : t.length ≤ L := by
        simp only [List.length_cons] at hL
        omega
      rcases htm : tryMatchCB (c :: t) with _ | x
      · have hstep := extractAux_step_cons n c t htm
        rw [hstep]
        dsimp only
        have hsinglec : [c] <+: (extractAux n (c :: t)).1 := by
          rw [hstep]
          exact ⟨(extractAux n t).1, rfl⟩
        have hclean₂ : ∀ i, ¬ Occurs (placeholder i) (pre ++ [c]) := by
          intro i hocc
          rcases occurs_split _ _ _ hocc with h1 | h2 | ⟨u, v, hpuv, hu, hv, hus, hvp⟩
          · exact hclean i h1
          · have hl := occurs_length _ _ h2
            have := placeholder_length i
            simp at hl
            omega
          · have hvc : v = [c] := by
              obtain ⟨r, hr⟩ := hvp
              rcases v with _ | ⟨v₀, v'⟩
              · exact absurd rfl hv
              · simp only [List.cons_append, List.cons.injEq] at hr
                obtain ⟨hv₀, h2⟩ := hr
                obtain ⟨hv', -⟩ := List.append_eq_nil.mp h2
                subst hv'
                rw [hv₀]
            exact hspan i u v hpuv hu hv hus (hvc ▸ hsinglec)
        have hspan₂ : ∀ i u v, placeholder i = u ++ v → u ≠ [] → v ≠ [] →
            u <:+ pre ++ [c] → ¬ v <+: (extractAux n t).1 := by
          intro i u v hpuv hu hv hus hvp
          obtain ⟨u₀, hu₀c, hu₀⟩ : ∃ u₀, u = u₀ ++ [c] ∧ u₀ <:+ pre := by
            rcases suffix_append_cases u pre [c] hus with h1 | ⟨w, hw1, hw2⟩
            · obtain ⟨w₀, hw₀⟩ := h1
              rcases w₀ with _ | ⟨a, w'⟩
              · exact ⟨[], by simpa using hw₀, List.nil_suffix⟩
              · exfalso
                have hlw := congrArg List.length hw₀
                simp only [List.length_append, List.length_cons, List.length_nil] at hlw
                have hu0 : u.length = 0 := by omega
                exact hu (List.length_eq_zero.mp hu0)
            · exact ⟨w, hw1, hw2⟩
          subst hu₀c
          have hpuv₂ : placeholder i = u₀ ++ (c :: v) := by
            rw [hpuv]
            simp
          by_cases hu₀0 : u₀ = []
          · subst hu₀0
            simp only [List.nil_append] at hpuv₂
            rcases extract_prefix_analysis L n t i [c] v hlen (noPh_cons c t hnoph)
              (by rw [hpuv₂]; simp) hv hvp with h1 | ⟨h2, _⟩
            · obtain ⟨r, hr⟩ := h1
              exact hnoph i ⟨[], r, by simp [hpuv₂, hr]⟩
            · exact absurd h2 (by simp)
          · have hcv : (c :: v) <+: (extractAux n (c :: t)).1 := by
              rw [hstep]
              dsimp only
              obtain ⟨r, hr⟩ := hvp
              exact ⟨r, by simp [hr]⟩
            exact hspan i u₀ (c :: v) hpuv₂ hu₀0 (by simp) hu₀ hcv
        have hIH := ih t hlen n (pre ++ [c]) (noPh_cons c t hnoph) hclean₂ hspan₂
        rw [show pre ++ c :: (extractAux n t).1 = (pre ++ [c]) ++ (extractAux n t).1 by simp]
        rw [hIH]
        simp
      · have hstep := extractAux_step_match n (c :: t) x htm
        rw [hstep]
        dsimp only
        obtain ⟨heq, -, -⟩ := tryMatchCB_spec _ x htm
        obtain ⟨d, hd⟩ := tryMatchCB_head _ x htm
        have hmlast := tryMatchCB_getLast _ x htm
        have hltn : x.val.2.length ≤ L := by
          have := tryMatchCB_rest_lt _ x htm
          simp only [List.length_cons] at hL this
          omega
        have hnoph₂ : NoPh x.val.2 := noPh_of_append_right _ _ (heq ▸ hnoph)
        have hnophm : NoPh x.val.1 := noPh_of_append_left _ _ (heq ▸ hnoph)
        rw [restoreAux_cons]
        have hspanX : ∀ u v, placeholder n = u ++ v → u ≠ [] → v ≠ [] → u <:+ pre →
            ¬ v <+: (placeholder n ++ (extractAux (n + 1) x.val.2).1) := by
          intro u v hpuv hu hv hus
          have h := hspan n u v hpuv hu hv hus
          rw [hstep] at h
          exact h
        rw [replaceAll_append_front (placeholder n) x.val.1 pre _ (hclean n) hspanX]
        rw [replaceAll_head _ (placeholder n) x.val.1 (placeholder_ne_nil n)]
        rw [replaceAll_of_not_occurs _ (placeholder n) x.val.1
          (extract_no_stale_placeholder L (n + 1) x.val.2 n hltn hnoph₂ (by omega))]
        have hclean₂ : ∀ i, ¬ Occurs (placeholder i) (pre ++ x.val.1) := by
          intro i hocc
          rcases occurs_split _ _ _ hocc with h1 | h2 | ⟨u, v, hpuv, hu, hv, hus, hvp⟩
          · exact hclean i h1
          · exact hnophm i h2
          · obtain ⟨r, hr⟩ := hvp
            rcases v with _ | ⟨v₀, v'⟩
            · exact absurd rfl hv
            · rw [hd] at hr
              simp only [List.cons_append, List.cons.injEq] at hr
              obtain ⟨hv₀, -⟩ := hr
              apply bq_not_mem_placeholder i
              rw [hpuv, ← hv₀]
              exact List.mem_append_right u (List.mem_cons_self v₀ v')
        have hspan₂ : ∀ i u v, placeholder i = u ++ v → u ≠ [] → v ≠ [] →
            u <:+ pre ++ x.val.1 → ¬ v <+: (extractAux (n + 1) x.val.2).1 := by
          intro i u v hpuv hu hv hus hvp
          rcases suffix_append_cases u pre x.val.1 hus with h1 | ⟨w, hw1, hw2⟩
          · obtain ⟨w₀, hw₀⟩ := h1
            have hul : u.getLast? = some '`' := by
              rw [← getLastQ_append_right u hu w₀, hw₀]
              exact hmlast
            have hbq : '`' ∈ u := mem_of_getLastQ u '`' hul
            exact bq_not_mem_placeholder i (by rw [hpuv]; exact List.mem_append_left v hbq)
          · have hbq : '`' ∈ u := by
              rw [hw1, hd]
              exact List.mem_append_right w (List.mem_cons_self _ _)
            exact bq_not_mem_placeholder i (by rw [hpuv]; exact List.mem_append_left v hbq)
        have hIH := ih x.val.2 hltn (n + 1) (pre ++ x.val.1) hnoph₂ hclean₂ hspan₂
        rw [show pre ++ (x.val.1 ++ (extractAux (n + 1) x.val.2).1) =
          (pre ++ x.val.1) ++ (extractAux (n + 1) x.val.2).1 by simp]
        rw [hIH, List.append_assoc]
        exact congrArg (fun z => pre ++ z) heq.symm

theorem noPh_of_no_phHead (s : List Char) (h : occursB phHead s = false) : NoPh s := by
  intro i hocc
  have h2 : Occurs phHead s :=
    occurs_trans phHead (placeholder i) s
      ⟨[], natDigits i ++ phTail, by simp [placeholder]⟩ hocc
  rw [occurs_iff_occursB] at h2
  rw [h] at h2
  exact Bool.noConfusion h2

/-- **C1.** For every body text containing no placeholder token,
`restore_code_blocks` applied to the output of `extract_code_blocks`
(placeholder text and extracted block list, unaltered in between)
reproduces the original body exactly: extract-then-restore is the
identity. -/
theorem claim1_extract_restore_identity (s : List Char) (h : NoPh s) :
    restore_code_blocks (extract_code_blocks s).1 (extract_code_blocks s).2 = s := by
  have hmain := restore_extract_front s.length s le_rfl 0 [] h
    (fun i hc => placeholder_ne_nil i (occurs_nil _ hc))
    (fun i u v _ hu _ hus => absurd (List.suffix_nil.mp hus) hu)
  simpa [restore_code_blocks, extract_code_blocks] using hmain

/-- Closed instance of C1: a concrete body with one fenced block and no
placeholder token round-trips exactly. -/
theorem claim1_witness :
    NoPh ("hello\n```r\ncode\n```\nworld".data) ∧
    restore_code_blocks (extract_code_blocks ("hello\n```r\ncode\n```\nworld".data)).1
        (extract_code_blocks ("hello\n```r\ncode\n```\nworld".data)).2 =
      "hello\n```r\ncode\n```\nworld".data := by
  have hnoph : NoPh ("hello\n```r\ncode\n```\nworld".data) :=
    noPh_of_no_phHead _ (by decide)
  exact ⟨hnoph, claim1_extract_restore_identity _ hnoph⟩

theorem takeWhile_all_append (p : Char → Bool) : ∀ (tk r : List Char),
    (∀ c ∈ tk, p c = true) → (tk ++ r).takeWhile p = tk ++ r.takeWhile p := by
  intro tk
  induction tk with
  | nil =>
    intro r _
    simp
  | cons a tk' ih =>
    intro r hall
    have ha : p a = true := hall a (List.mem_cons_self _ _)
    rw [List.cons_append, List.takeWhile_cons_of_pos ha,
      ih r (fun c hc => hall c (List.mem_cons_of_mem a hc))]
    rfl

/-- No line of `b` after the first is a closing fence: wherever `b` splits
at a newline, the following text does not start with three or more
backticks. -/
def NoFenceClose (b : List Char) : Prop :=
  ∀ x y, b = x ++ '\n' :: y → ((y.takeWhile (fun c => c = '`')).length) < 3

theorem extractAux_id (n : Nat) : ∀ (s : List Char),
    (∀ t, t <:+ s → tryMatchCB t = none) → extractAux n s = (s, []) := by
  intro s
  induction s with
  | nil =>
    intro _
    exact extractAux_nil n
  | cons c t ih =>
    intro hall
    rw [extractAux_step_cons n c t (hall (c :: t) List.suffix_rfl)]
    rw [ih (fun u hu => hall u (hu.trans (List.suffix_cons c t)))]

theorem tryMatchCB_none_of_noclose (b : List Char) (hnc : NoFenceClose b) :
    ∀ t, t <:+ b → tryMatchCB t = none := by
  intro t hsuf
  rcases htm : tryMatchCB t with _ | x
  · rfl
  · exfalso
    obtain ⟨heq, ⟨a, c, tk, hm, htk3, htkc⟩, -⟩ := tryMatchCB_spec t x htm
    obtain ⟨w, hw⟩ := hsuf
    have h1 : b = w ++ (x.val.1 ++ x.val.2) :=
      hw.symm.trans (congrArg (fun z => w ++ z) heq)
    have h2 : x.val.1 ++ x.val.2 = (a ++ '\n' :: c) ++ '\n' :: (tk ++ x.val.2) := by
      rw [hm]
      simp
    have hb : b = (w ++ (a ++ '\n' :: c)) ++ '\n' :: (tk ++ x.val.2) := by
      rw [h1, h2]
      simp
    have hlt := hnc _ _ hb
    rw [takeWhile_all_append _ tk x.val.2
      (fun ch hch => by simp [htkc ch hch])] at hlt
    simp only [List.length_append] at hlt
    omega

theorem single_newline_split : ∀ (p x q y : List Char), '\n' ∉ p → '\n' ∉ q →
    p ++ '\n' :: q = x ++ '\n' :: y → x = p ∧ y = q := by
  intro p
  induction p with
  | nil =>
    intro x q y _ hq h
    cases x with
    | nil =>
      simp only [List.nil_append, List.cons.injEq] at h
      exact ⟨rfl, h.2.symm⟩
    | cons a x' =>
      simp only [List.nil_append, List.cons_append, List.cons.injEq] at h
      obtain ⟨ha, hq2⟩ := h
      exact absurd (by rw [hq2]; exact List.mem_append_right x' (List.mem_cons_self _ _)) hq
  | cons a p' ih =>
    intro x q y hp hq h
    cases x with
    | nil =>
      simp only [List.cons_append, List.nil_append, List.cons.injEq] at h
      exact absurd (h.1 ▸ List.mem_cons_self a p') hp
    | cons b x' =>
      simp only [List.cons_append, List.cons.injEq] at h
      obtain ⟨hab, h2⟩ := h
      have hp' : '\n' ∉ p' := fun hc => hp (List.mem_cons_of_mem a hc)
      obtain ⟨h3, h4⟩ := ih x' q y hp' hq h2
      exact ⟨by rw [h3, hab], h4⟩

/-- The claim C10 as stated: for every body containing an opening fence of
three or more backticks at the start of a line (`v` starts the body or
follows a newline), never followed by a closing fence line, extraction
leaves that fence and everything after it unchanged — the suffix `v`
survives verbatim in the returned text. -/
def claim10Statement : Prop :=
  ∀ (b pre v : List Char), b = pre ++ v →
    (pre = [] ∨ ∃ pre2, pre = pre2 ++ ['\n']) →
    3 ≤ ((v.takeWhile (fun c => c = '`')).length) →
    NoFenceClose v →
    v <:+ (extract_code_blocks b).1

/-- **C10 (counterexample).** In `"```r\ncode\n```q\nxyz"` the fence
`` ```q `` opens a line and is never followed by a closing fence line, yet
the non-greedy scan consumes its backticks as the closing fence of the
earlier `` ```r `` block: the output is `"<<<CODE_BLOCK_0>>>q\nxyz"`, so
the unterminated fence does not survive in the returned text and the claim
fails on mid-body unterminated fences. -/
theorem claim10_counterexample : ¬ claim10Statement := by
  intro h
  have hv := h ("```r\ncode\n```q\nxyz".data) ("```r\ncode\n".data) ("```q\nxyz".data)
    (by decide) (Or.inr ⟨"```r\ncode".data, by decide⟩) (by decide) ?noclose
  case noclose =>
    intro x y hxy
    obtain ⟨hx, hy⟩ := single_newline_split ("```q".data) x ("xyz".data) y
      (by decide) (by decide) (by rw [← hxy]; decide)
    subst hy
    decide
  rw [← List.isSuffixOf_iff_suffix] at hv
  exact absurd hv (by decide)

/-- **C10 (amended).** A body with no closing fence line at all — no
newline followed by three or more backticks — is returned by
`extract_code_blocks` completely unchanged with an empty block list; in
particular a body that is exactly an unterminated fenced region is not
protected from translation.  A mid-body unterminated fence, however, is
not necessarily preserved: its backticks can instead be consumed as the
closing fence of an earlier fenced region. -/
theorem claim10_amended (b : List Char) (hnc : NoFenceClose b) :
    extract_code_blocks b = (b, []) :=
  extractAux_id 0 b (tryMatchCB_none_of_noclose b hnc)

/-- Closed instance of C10 (amended): the body `"```a\nxyz"` opens a fence
that is never closed and has no closing fence line; extraction returns it
unchanged with no blocks. -/
theorem claim10_witness :
    NoFenceClose ("```a\nxyz".data) ∧
    extract_code_blocks ("```a\nxyz".data) = ("```a\nxyz".data, []) := by
  have hnc : NoFenceClose ("```a\nxyz".data) := by
    intro x y hxy
    obtain ⟨hx, hy⟩ := single_newline_split ("```a".data) x ("xyz".data) y
      (by decide) (by decide) (by rw [← hxy]; decide)
    subst hy
    decide
  exact ⟨hnc, claim10_amended _ hnc⟩
